import Mathlib

set_option linter.unusedVariables false

/-!
Verification of the PageRank and heredity inference engines.

The Python dictionaries are modelled as association lists (`List (ℕ × α)`),
with `dictGet` reading the first matching key and `dictUpdate` replacing the
first matching key in place (appending when absent), matching Python's
insertion-ordered dict semantics.  Page and person identifiers are modelled
as natural numbers.  Probabilities use exact rational arithmetic (`ℚ`).
-/

/-- Read a key from an association list, returning `dflt` when absent
(the code only reads keys that are present). -/
def dictGet {α : Type} (dflt : α) (k : ℕ) : List (ℕ × α) → α
  | [] => dflt
  | (k2, v) :: rest => if k2 = k then v else dictGet dflt k rest

/-- Python dict assignment `m[k] = v`: replace the (first) binding of `k`
in place, or append a new binding when `k` is absent. -/
def dictUpdate {α : Type} (k : ℕ) (v : α) : List (ℕ × α) → List (ℕ × α)
  | [] => [(k, v)]
  | (k2, w) :: rest => if k2 = k then (k2, v) :: rest else (k2, w) :: dictUpdate k v rest

/-- The keys of an association list, in order. -/
def dictKeys {α : Type} (m : List (ℕ × α)) : List ℕ := m.map Prod.fst

/-- The sum of all values of an association list of rationals. -/
def sumValues (m : List (ℕ × ℚ)) : ℚ := (m.map Prod.snd).sum

theorem dictGet_update_self {α : Type} (dflt : α) (k : ℕ) (v : α) (m : List (ℕ × α)) :
    dictGet dflt k (dictUpdate k v m) = v := by
  induction m with
  | nil => simp [dictUpdate, dictGet]
  | cons kv rest ih =>
    obtain ⟨k2, w⟩ := kv
    by_cases h : k2 = k
    · simp [dictUpdate, dictGet, h]
    · simp [dictUpdate, dictGet, h, ih]

theorem dictGet_update_ne {α : Type} (dflt : α) (k k' : ℕ) (v : α) (m : List (ℕ × α))
    (hne : k' ≠ k) : dictGet dflt k' (dictUpdate k v m) = dictGet dflt k' m := by
  have hkk : k ≠ k' := Ne.symm hne
  induction m with
  | nil => simp [dictUpdate, dictGet, hkk]
  | cons kv rest ih =>
    obtain ⟨k2, w⟩ := kv
    by_cases h : k2 = k
    · subst h
      simp [dictUpdate, dictGet, hkk]
    · simp only [dictUpdate, if_neg h, dictGet]
      by_cases h' : k2 = k'
      · simp [h']
      · simp [h', ih]

theorem dictKeys_update_mem {α : Type} (k : ℕ) (v : α) (m : List (ℕ × α)) :
    k ∈ dictKeys m → dictKeys (dictUpdate k v m) = dictKeys m := by
  induction m with
  | nil => intro hmem; simp [dictKeys] at hmem
  | cons kv rest ih =>
    intro hmem
    obtain ⟨k2, w⟩ := kv
    by_cases h : k2 = k
    · simp [dictUpdate, dictKeys, h]
    · have hmem2 : k ∈ k2 :: dictKeys rest := hmem
      have hmem' : k ∈ dictKeys rest := by
        rcases List.mem_cons.mp hmem2 with h1 | h1
        · exact absurd h1.symm h
        · exact h1
      show dictKeys (if k2 = k then (k2, v) :: rest else (k2, w) :: dictUpdate k v rest) = _
      rw [if_neg h]
      show k2 :: dictKeys (dictUpdate k v rest) = k2 :: dictKeys rest
      rw [ih hmem']

/-- With distinct keys, the sum of the values is the sum, over the keys,
of the looked-up values. -/
theorem sumValues_eq_sum_over_keys (m : List (ℕ × ℚ)) :
    (dictKeys m).Nodup → sumValues m = ((dictKeys m).map (fun k => dictGet 0 k m)).sum := by
  induction m with
  | nil => intro _; simp [sumValues, dictKeys]
  | cons kv rest ih =>
    intro hnd
    obtain ⟨k2, w⟩ := kv
    have hnd2 : k2 ∉ rest.map Prod.fst ∧ (rest.map Prod.fst).Nodup := by
      simpa [dictKeys] using hnd
    have hrest := ih hnd2.2
    simp only [sumValues, dictKeys] at hrest ⊢
    simp only [List.map_cons, List.sum_cons]
    have hself : dictGet 0 k2 ((k2, w) :: rest) = w := by simp [dictGet]
    have hmap : (rest.map Prod.fst).map (fun k => dictGet 0 k ((k2, w) :: rest)) =
        (rest.map Prod.fst).map (fun k => dictGet 0 k rest) := by
      apply List.map_congr_left
      intro a ha
      have hne : k2 ≠ a := fun h => hnd2.1 (h ▸ ha)
      simp [dictGet, hne]
    rw [hself, hmap, ← hrest]

/-- The damping constant of `pagerank.py` (`DAMPING = 0.85`). -/
def DAMPING : ℚ := 17 / 20

/-- `corpus[page]`: the outgoing links of `page` (pages are natural numbers,
the corpus is the dict from page to its set of links, as a list). -/
def corpusLinks (corpus : List (ℕ × List ℕ)) (page : ℕ) : List ℕ :=
  dictGet [] page corpus

/-- Embedding of `transition_model(corpus, page, damping_factor)`:
initialize every corpus page to 0; if the current page has outgoing links,
set each linked page to `DAMPING / num` (the code uses the global constant
`DAMPING`, not the `damping_factor` argument) and then add `(1 - DAMPING) /
len(corpus)` to every page; otherwise give every page `1 / len(corpus)`. -/
def transition_model (corpus : List (ℕ × List ℕ)) (page : ℕ) (damping_factor : ℚ) :
    List (ℕ × ℚ) :=
  let model0 : List (ℕ × ℚ) := corpus.map (fun kv => (kv.1, 0))
  let num := (corpusLinks corpus page).length
  if num ≠ 0 then
    let model1 := (corpusLinks corpus page).foldl
      (fun m q => dictUpdate q (DAMPING / (num : ℚ)) m) model0
    (dictKeys corpus).foldl
      (fun m new_page =>
        dictUpdate new_page (dictGet 0 new_page m + (1 - DAMPING) / (corpus.length : ℚ)) m)
      model1
  else
    (dictKeys corpus).foldl
      (fun m new_page => dictUpdate new_page (1 / (corpus.length : ℚ)) m) model0

theorem dictGet_of_mem_nodup {α : Type} (dflt : α) (k : ℕ) (v : α) (m : List (ℕ × α)) :
    (k, v) ∈ m → (dictKeys m).Nodup → dictGet dflt k m = v := by
  induction m with
  | nil => intro h _; simp at h
  | cons kv rest ih =>
    intro hmem hnd
    obtain ⟨k2, w⟩ := kv
    rcases List.mem_cons.mp hmem with h1 | h1
    · injection h1 with hk hv
      subst hk
      subst hv
      simp [dictGet]
    · have hk2 : k2 ∉ dictKeys rest := (List.nodup_cons.mp hnd).1
      have hne : k2 ≠ k := by
        intro h
        subst h
        exact hk2 (by simp [dictKeys]; exact ⟨v, h1⟩)
      simp only [dictGet, if_neg hne]
      exact ih h1 (List.nodup_cons.mp hnd).2

theorem dictGet_foldl_const (ks : List ℕ) (c : ℚ) (q : ℕ) :
    ∀ m0 : List (ℕ × ℚ), dictGet 0 q (ks.foldl (fun m k => dictUpdate k c m) m0) =
      if q ∈ ks then c else dictGet 0 q m0 := by
  induction ks with
  | nil => intro m0; simp
  | cons a rest ih =>
    intro m0
    simp only [List.foldl_cons]
    rw [ih (dictUpdate a c m0)]
    by_cases hq : q ∈ rest
    · simp [hq]
    · by_cases ha : q = a
      · subst ha; simp [hq, dictGet_update_self]
      · simp [hq, ha, dictGet_update_ne _ _ _ _ _ ha]

theorem dictGet_foldl_addconst (ks : List ℕ) (b : ℚ) (q : ℕ) :
    ∀ m0 : List (ℕ × ℚ), ks.Nodup →
      dictGet 0 q (ks.foldl (fun m k => dictUpdate k (dictGet 0 k m + b) m) m0) =
      if q ∈ ks then dictGet 0 q m0 + b else dictGet 0 q m0 := by
  induction ks with
  | nil => intro m0 _; simp
  | cons a rest ih =>
    intro m0 hnd
    have hna : a ∉ rest := (List.nodup_cons.mp hnd).1
    simp only [List.foldl_cons]
    rw [ih _ (List.nodup_cons.mp hnd).2]
    by_cases ha : q = a
    · subst ha
      simp [hna, dictGet_update_self]
    · by_cases hq : q ∈ rest
      · simp [hq, dictGet_update_ne _ _ _ _ _ ha]
      · simp [hq, ha, dictGet_update_ne _ _ _ _ _ ha]

theorem dictKeys_foldl_update (ks : List ℕ) (f : List (ℕ × ℚ) → ℕ → ℚ) :
    ∀ m0 : List (ℕ × ℚ), (∀ k ∈ ks, k ∈ dictKeys m0) →
      dictKeys (ks.foldl (fun m k => dictUpdate k (f m k) m) m0) = dictKeys m0 := by
  induction ks with
  | nil => intro m0 _; rfl
  | cons a rest ih =>
    intro m0 hks
    simp only [List.foldl_cons]
    have h1 : dictKeys (dictUpdate a (f m0 a) m0) = dictKeys m0 :=
      dictKeys_update_mem _ _ _ (hks a (by simp))
    rw [ih (dictUpdate a (f m0 a) m0)
      (fun k hk => h1.symm ▸ hks k (List.mem_cons_of_mem _ hk)), h1]

theorem dictGet_map_zero (corpus : List (ℕ × List ℕ)) (q : ℕ) :
    dictGet 0 q (corpus.map (fun kv => (kv.1, (0:ℚ)))) = 0 := by
  induction corpus with
  | nil => simp [dictGet]
  | cons kv rest ih =>
    by_cases h : kv.1 = q <;> simp [dictGet, h, ih]

theorem dictKeys_map_zero (corpus : List (ℕ × List ℕ)) :
    dictKeys (corpus.map (fun kv => (kv.1, (0:ℚ)))) = dictKeys corpus := by
  simp [dictKeys, List.map_map]

theorem list_sum_map_add {α : Type} (l : List α) (f g : α → ℚ) :
    (l.map (fun a => f a + g a)).sum = (l.map f).sum + (l.map g).sum := by
  induction l with
  | nil => simp
  | cons a rest ih => simp [ih]; ring

theorem list_sum_map_ite (l : List ℕ) (p : ℕ → Prop) [DecidablePred p] (c : ℚ) :
    (l.map (fun a => if p a then c else 0)).sum =
      ((l.countP (fun a => decide (p a))) : ℚ) * c := by
  induction l with
  | nil => simp
  | cons a rest ih =>
    by_cases h : p a
    · simp only [List.map_cons, List.sum_cons, if_pos h, List.countP_cons, ih]
      simp [h]
      ring
    · simp only [List.map_cons, List.sum_cons, if_neg h, List.countP_cons, ih]
      simp [h]

theorem list_countP_mem_eq_length (keys links : List ℕ) (hk : keys.Nodup)
    (hl : links.Nodup) (hsub : ∀ r ∈ links, r ∈ keys) :
    keys.countP (fun a => decide (a ∈ links)) = links.length := by
  rw [List.countP_eq_length_filter]
  have hperm : (keys.filter (fun a => decide (a ∈ links))).Perm links := by
    rw [List.perm_ext_iff_of_nodup (List.Nodup.filter _ hk) hl]
    intro a
    simp only [List.mem_filter, decide_eq_true_eq]
    exact ⟨fun h => h.2, fun h => ⟨hsub a h, h⟩⟩
  exact hperm.length_eq

theorem list_sum_map_const_rat (l : List ℕ) (c : ℚ) :
    (l.map (fun _ => c)).sum = (l.length : ℚ) * c := by
  induction l with
  | nil => simp
  | cons a rest ih => simp [ih]; ring

/-- A property holding for the empty list and for every entry's link list
holds for `corpus[page]` (whatever key is looked up). -/
theorem corpusLinks_prop (corpus : List (ℕ × List ℕ)) (page : ℕ) (P : List ℕ → Prop)
    (hnil : P []) (hall : ∀ kv ∈ corpus, P kv.2) : P (corpusLinks corpus page) := by
  induction corpus with
  | nil => exact hnil
  | cons kv rest ih =>
    obtain ⟨k2, ls⟩ := kv
    by_cases h : k2 = page
    · simpa [corpusLinks, dictGet, h] using hall (k2, ls) (by simp)
    · simp only [corpusLinks, dictGet, if_neg h]
      exact ih (fun kv2 hm => hall kv2 (List.mem_cons_of_mem _ hm))

theorem transition_model_keys (corpus : List (ℕ × List ℕ)) (page : ℕ) (d : ℚ)
    (hlinks : ∀ r ∈ corpusLinks corpus page, r ∈ dictKeys corpus) :
    dictKeys (transition_model corpus page d) = dictKeys corpus := by
  simp only [transition_model]
  by_cases hnum : (corpusLinks corpus page).length ≠ 0
  · rw [if_pos hnum]
    have h1 : dictKeys ((corpusLinks corpus page).foldl
        (fun m q => dictUpdate q (DAMPING / (((corpusLinks corpus page).length : ℕ) : ℚ)) m)
        (corpus.map (fun kv => (kv.1, (0:ℚ))))) = dictKeys corpus := by
      rw [dictKeys_foldl_update _
        (fun _ _ => DAMPING / (((corpusLinks corpus page).length : ℕ) : ℚ)) _
        (fun k hk => by rw [dictKeys_map_zero]; exact hlinks k hk)]
      exact dictKeys_map_zero corpus
    rw [dictKeys_foldl_update _ (fun m k => dictGet 0 k m + (1 - DAMPING) / (corpus.length : ℚ))
      _ (fun k hk => by rw [h1]; exact hk)]
    exact h1
  · rw [if_neg hnum]
    rw [dictKeys_foldl_update _ (fun _ _ => 1 / (corpus.length : ℚ)) _
      (fun k hk => by rw [dictKeys_map_zero]; exact hk)]
    exact dictKeys_map_zero corpus

/-- Pointwise value of the transition model: with outgoing links every page
gets the uniform `(1-DAMPING)/N` baseline, linked pages additionally get
`DAMPING/num`; a dangling page yields the uniform `1/N` distribution. -/
theorem transition_model_get (corpus : List (ℕ × List ℕ)) (page : ℕ) (d : ℚ) (q : ℕ)
    (hnd : (dictKeys corpus).Nodup) (hq : q ∈ dictKeys corpus) :
    dictGet 0 q (transition_model corpus page d) =
      if (corpusLinks corpus page).length ≠ 0 then
        (if q ∈ corpusLinks corpus page then
          DAMPING / (((corpusLinks corpus page).length : ℕ) : ℚ) else 0)
          + (1 - DAMPING) / (corpus.length : ℚ)
      else 1 / (corpus.length : ℚ) := by
  simp only [transition_model]
  by_cases hnum : (corpusLinks corpus page).length ≠ 0
  · rw [if_pos hnum, if_pos hnum]
    rw [dictGet_foldl_addconst _ _ _ _ hnd, if_pos hq]
    rw [dictGet_foldl_const]
    by_cases hmem : q ∈ corpusLinks corpus page
    · rw [if_pos hmem, if_pos hmem]
    · rw [if_neg hmem, if_neg hmem, dictGet_map_zero]
  · rw [if_neg hnum, if_neg hnum]
    rw [dictGet_foldl_const, if_pos hq]

/-- The set `page_link[q]` of pages that link to `q`, as `iterate_pagerank`
builds it by inverting the forward links: `p` is a parent of `q` exactly
when `q ∈ corpus[p]`.  The Python set is rendered as the list of corpus
keys (in corpus order) whose entry links to `q`. -/
def pageLink (corpus : List (ℕ × List ℕ)) (q : ℕ) : List ℕ :=
  (corpus.filter (fun kv => decide (q ∈ kv.2))).map Prod.fst

/-- The body of the per-page update of `iterate_pagerank`, reading the
current rank dict `pr`: `(1-d)/n` plus `d` times the sum over the parents
`page_link[page]`, where a parent with outgoing links contributes
`pr[parent]/len(corpus[parent])` and a parent with no outgoing links
contributes `pr[parent]/n`. -/
def codeNewRank (corpus : List (ℕ × List ℕ)) (d : ℚ) (pr : List (ℕ × ℚ)) (page : ℕ) : ℚ :=
  (1 - d) / (corpus.length : ℚ) + d * ((pageLink corpus page).foldl (fun s p =>
    if (corpusLinks corpus p).length ≠ 0 then
      s + dictGet 0 p pr / ((corpusLinks corpus p).length : ℚ)
    else
      s + dictGet 0 p pr / (corpus.length : ℚ)) 0)

/-- One full pass of the `while` loop of `iterate_pagerank`: pages are
processed in corpus (key) order and the rank dict is updated in place, so a
page later in the order reads the already-updated ranks of earlier pages.
The Boolean is the `ok` flag: it becomes `false` as soon as some page's
rank moves by more than 0.001. -/
def sweep (corpus : List (ℕ × List ℕ)) (d : ℚ) (pr : List (ℕ × ℚ)) :
    List (ℕ × ℚ) × Bool :=
  (dictKeys corpus).foldl (fun st page =>
    (dictUpdate page (codeNewRank corpus d st.1 page) st.1,
     st.2 && decide (|dictGet 0 page st.1 - codeNewRank corpus d st.1 page| ≤ 1/1000)))
    (pr, true)

/-- The `while ok == False` loop of `iterate_pagerank`, with explicit fuel:
run a sweep; if no page moved by more than 0.001 return the ranks,
otherwise continue.  `none` means the fuel ran out before convergence. -/
def iterateAux (corpus : List (ℕ × List ℕ)) (d : ℚ) :
    ℕ → List (ℕ × ℚ) → Option (List (ℕ × ℚ))
  | 0, _ => none
  | fuel + 1, pr =>
    let st := sweep corpus d pr
    if st.2 then some st.1 else iterateAux corpus d fuel st.1

/-- Embedding of `iterate_pagerank(corpus, damping_factor)`: every rank is
initialized to `1/len(corpus)`, then in-place sweeps repeat until a sweep
moves every page by at most 0.001. -/
def iterate_pagerank (corpus : List (ℕ × List ℕ)) (damping_factor : ℚ) (fuel : ℕ) :
    Option (List (ℕ × ℚ)) :=
  iterateAux corpus damping_factor fuel
    (corpus.map (fun kv => (kv.1, 1 / (corpus.length : ℚ))))

/-- The per-page update with the dangling-parent branch removed: a parent
with no outgoing links contributes nothing at all. -/
def codeNewRankNoRedist (corpus : List (ℕ × List ℕ)) (d : ℚ) (pr : List (ℕ × ℚ))
    (page : ℕ) : ℚ :=
  (1 - d) / (corpus.length : ℚ) + d * ((pageLink corpus page).foldl (fun s p =>
    if (corpusLinks corpus p).length ≠ 0 then
      s + dictGet 0 p pr / ((corpusLinks corpus p).length : ℚ)
    else s) 0)

/-- The sweep built on `codeNewRankNoRedist`. -/
def sweepNoRedist (corpus : List (ℕ × List ℕ)) (d : ℚ) (pr : List (ℕ × ℚ)) :
    List (ℕ × ℚ) × Bool :=
  (dictKeys corpus).foldl (fun st page =>
    (dictUpdate page (codeNewRankNoRedist corpus d st.1 page) st.1,
     st.2 && decide (|dictGet 0 page st.1 - codeNewRankNoRedist corpus d st.1 page| ≤ 1/1000)))
    (pr, true)

/-- The per-sweep update equation as the specification states it (§4.4):
`(1-d)/N + d·Σ` over parents `p` of `rank[p]/outDegree(p)`, where every
page with zero outgoing links contributes `rank[p]/N` to every page. -/
def specNewRank (corpus : List (ℕ × List ℕ)) (d : ℚ) (pr : List (ℕ × ℚ)) (q : ℕ) : ℚ :=
  (1 - d) / (corpus.length : ℚ) + d * ((corpus.map (fun kv =>
    if kv.2.length = 0 then dictGet 0 kv.1 pr / (corpus.length : ℚ)
    else if q ∈ kv.2 then dictGet 0 kv.1 pr / (kv.2.length : ℚ) else 0)).sum)

/-- The double-buffered (synchronous) sweep the specification mandates:
every page's new rank is computed by the code's per-page equation from the
same frozen snapshot `pr`. -/
def syncSweep (corpus : List (ℕ × List ℕ)) (d : ℚ) (pr : List (ℕ × ℚ)) :
    List (ℕ × ℚ) :=
  corpus.map (fun kv => (kv.1, codeNewRank corpus d pr kv.1))

theorem list_foldl_congr_mem {α β : Type} (l : List α) (f g : β → α → β) :
    ∀ init : β, (∀ b, ∀ a ∈ l, f b a = g b a) → l.foldl f init = l.foldl g init := by
  induction l with
  | nil => intro init _; rfl
  | cons a rest ih =>
    intro init h
    simp only [List.foldl_cons]
    rw [h init a (by simp)]
    exact ih _ (fun b a' ha' => h b a' (List.mem_cons_of_mem _ ha'))

/-- Every parent recorded in the inverted-link dict links to the child and
hence has at least one outgoing link. -/
theorem pageLink_mem_outdeg (corpus : List (ℕ × List ℕ)) (q p : ℕ)
    (hnd : (dictKeys corpus).Nodup) (hp : p ∈ pageLink corpus q) :
    q ∈ corpusLinks corpus p ∧ (corpusLinks corpus p).length ≠ 0 := by
  simp only [pageLink, List.mem_map, List.mem_filter] at hp
  obtain ⟨kv, ⟨hkv, hqmem⟩, hfst⟩ := hp
  have hq : q ∈ kv.2 := by simpa using hqmem
  have hlook : corpusLinks corpus p = kv.2 := by
    have : (p, kv.2) ∈ corpus := by
      have : kv = (p, kv.2) := by
        obtain ⟨a, b⟩ := kv
        simp at hfst
        simp [hfst]
      exact this ▸ hkv
    exact dictGet_of_mem_nodup [] p kv.2 corpus this hnd
  refine ⟨hlook ▸ hq, ?_⟩
  rw [hlook]
  exact fun h => (List.ne_nil_of_mem hq) (List.eq_nil_of_length_eq_zero h)

/-- C10: in `iterate_pagerank`, every page `p` recorded in some inverted
link set `page_link[q]` satisfies `q ∈ corpus[p]` and hence has at least
one outgoing link; consequently the zero-outgoing-links branch of the
parent summation is unreachable and the sweep coincides with the sweep in
which a dangling parent contributes nothing. -/
theorem iterate_pagerank_dangling_branch_unreachable :
    ∀ corpus : List (ℕ × List ℕ), (dictKeys corpus).Nodup →
      (∀ q p, p ∈ pageLink corpus q →
        q ∈ corpusLinks corpus p ∧ (corpusLinks corpus p).length ≠ 0) ∧
      (∀ d pr, sweep corpus d pr = sweepNoRedist corpus d pr) := by
  intro corpus hnd
  refine ⟨fun q p hp => pageLink_mem_outdeg corpus q p hnd hp, fun d pr => ?_⟩
  have hnewRank : ∀ pr2 page, codeNewRank corpus d pr2 page =
      codeNewRankNoRedist corpus d pr2 page := by
    intro pr2 page
    unfold codeNewRank codeNewRankNoRedist
    congr 1
    congr 1
    apply list_foldl_congr_mem
    intro b a ha
    have h2 := (pageLink_mem_outdeg corpus page a hnd ha).2
    rw [if_pos h2, if_pos h2]
  unfold sweep sweepNoRedist
  apply list_foldl_congr_mem
  intro st page hpage
  rw [hnewRank st.1 page]

theorem iterate_pagerank_dangling_branch_unreachable_witness :
    (dictKeys [(0, [1]), (1, [])]).Nodup ∧
    (0 ∈ pageLink [(0, [1]), (1, [])] 1 ∧
      1 ∈ corpusLinks [(0, [1]), (1, [])] 0 ∧
      (corpusLinks [(0, [1]), (1, [])] 0).length ≠ 0) ∧
    sweep [(0, [1]), (1, [])] DAMPING [(0, 1/2), (1, 1/2)] =
      sweepNoRedist [(0, [1]), (1, [])] DAMPING [(0, 1/2), (1, 1/2)] := by
  have h := iterate_pagerank_dangling_branch_unreachable [(0, [1]), (1, [])] (by decide)
  have hp : (0 : ℕ) ∈ pageLink [(0, [1]), (1, [])] 1 := by decide
  exact ⟨by decide, ⟨hp, (h.1 1 0 hp).1, (h.1 1 0 hp).2⟩, h.2 DAMPING _⟩

/-- C9: under the corpus invariant (distinct keys, link sets without
duplicates whose targets are corpus keys), for every corpus page and every
damping factor in [0,1] the transition-model distribution sums to exactly
1, in both the outgoing-links case and the dangling case. -/
theorem transition_model_sum_eq_one (corpus : List (ℕ × List ℕ)) (page : ℕ) (d : ℚ)
    (hnd : (dictKeys corpus).Nodup) (hne : corpus ≠ []) (hpage : page ∈ dictKeys corpus)
    (hinv : ∀ kv ∈ corpus, kv.2.Nodup ∧ ∀ r ∈ kv.2, r ∈ dictKeys corpus)
    (hd0 : 0 ≤ d) (hd1 : d ≤ 1) :
    sumValues (transition_model corpus page d) = 1 := by
  have hlen : corpus.length ≠ 0 := fun h => hne (List.length_eq_zero.mp h)
  have hlenQ : ((corpus.length : ℕ) : ℚ) ≠ 0 := Nat.cast_ne_zero.mpr hlen
  have hlinksInv : (corpusLinks corpus page).Nodup ∧
      ∀ r ∈ corpusLinks corpus page, r ∈ dictKeys corpus :=
    corpusLinks_prop corpus page
      (fun ls => ls.Nodup ∧ ∀ r ∈ ls, r ∈ dictKeys corpus) ⟨List.nodup_nil, by simp⟩ hinv
  have hkeys := transition_model_keys corpus page d hlinksInv.2
  rw [sumValues_eq_sum_over_keys _ (by rw [hkeys]; exact hnd), hkeys]
  have hkeyslen : (dictKeys corpus).length = corpus.length := by simp [dictKeys]
  by_cases hnum : (corpusLinks corpus page).length ≠ 0
  · rw [List.map_congr_left (fun q hq =>
      (transition_model_get corpus page d q hnd hq).trans (if_pos hnum))]
    rw [list_sum_map_add (dictKeys corpus)
      (fun q => if q ∈ corpusLinks corpus page then
        DAMPING / (((corpusLinks corpus page).length : ℕ) : ℚ) else 0)
      (fun _ => (1 - DAMPING) / (corpus.length : ℚ))]
    rw [list_sum_map_ite (dictKeys corpus) (fun a => a ∈ corpusLinks corpus page)
      (DAMPING / (((corpusLinks corpus page).length : ℕ) : ℚ))]
    rw [list_countP_mem_eq_length _ _ hnd hlinksInv.1 hlinksInv.2]
    rw [list_sum_map_const_rat, hkeyslen]
    have hnumQ : (((corpusLinks corpus page).length : ℕ) : ℚ) ≠ 0 := Nat.cast_ne_zero.mpr hnum
    field_simp
  · rw [List.map_congr_left (fun q hq =>
      (transition_model_get corpus page d q hnd hq).trans (if_neg hnum))]
    rw [list_sum_map_const_rat, hkeyslen]
    field_simp

theorem transition_model_sum_eq_one_witness :
    ((dictKeys [(0, [1]), (1, [])]).Nodup ∧ ([(0, [1]), (1, [])] : List (ℕ × List ℕ)) ≠ [] ∧
      0 ∈ dictKeys [(0, [1]), (1, [])] ∧ (0 : ℚ) ≤ 1/2 ∧ (1/2 : ℚ) ≤ 1) ∧
    sumValues (transition_model [(0, [1]), (1, [])] 0 (1/2)) = 1 :=
  ⟨⟨by decide, by decide, by decide, by norm_num, by norm_num⟩,
    transition_model_sum_eq_one [(0, [1]), (1, [])] 0 (1/2) (by decide) (by decide) (by decide)
      (by decide) (by norm_num) (by norm_num)⟩

/-- C3 (refuted on the code): `transition_model` uses the module constant
`DAMPING = 0.85`, not its `damping_factor` argument.  Called with damping
factor 1/2 on the corpus 0 ↦ [1], 1 ↦ [0] from page 0, the linked page 1
receives `DAMPING/1 + (1 - DAMPING)/2 = 37/40`; the claim's equation
`d/k + (1-d)/N` demands `(1/2)/1 + (1 - 1/2)/2 = 3/4`. -/
theorem transition_model_ignores_damping_argument :
    dictGet 0 1 (transition_model [(0, [1]), (1, [0])] 0 (1/2)) =
      DAMPING / 1 + (1 - DAMPING) / 2 ∧
    dictGet 0 1 (transition_model [(0, [1]), (1, [0])] 0 (1/2)) ≠
      (1/2) / 1 + (1 - 1/2) / 2 := by
  constructor
  · norm_num [transition_model, corpusLinks, dictGet, dictUpdate, dictKeys, DAMPING]
  · norm_num [transition_model, corpusLinks, dictGet, dictUpdate, dictKeys, DAMPING]

/-- C1 (refuted on the code): on the corpus 0 ↦ [1], 1 ↦ [] with uniform
initial ranks 1/2, the sweep computes page 0's new rank as
`(1 - DAMPING)/2 = 3/40`: the dangling page 1 appears in no parent set, so
its mass is never redistributed.  The claimed equation, with the dangling
page contributing `rank/N` to every page, gives
`(1 - DAMPING)/2 + DAMPING·((1/2)/2) = 23/80`. -/
theorem iterate_pagerank_drops_dangling_mass :
    dictGet 0 0 (sweep [(0, [1]), (1, [])] DAMPING [(0, 1/2), (1, 1/2)]).1 = 3/40 ∧
    specNewRank [(0, [1]), (1, [])] DAMPING [(0, 1/2), (1, 1/2)] 0 = 23/80 ∧
    (3/40 : ℚ) ≠ 23/80 := by
  refine ⟨?_, ?_, by norm_num⟩
  · norm_num [sweep, codeNewRank, pageLink, corpusLinks, dictGet, dictUpdate, dictKeys,
      DAMPING, List.filter]
  · norm_num [specNewRank, dictGet, dictKeys, DAMPING]

/-- C2, counterexample: the in-place sweep is not the double-buffered
sweep.  On the corpus 0 ↦ [1], 1 ↦ [0], 2 ↦ [0] with uniform ranks 1/3,
page 1's parent 0 is updated earlier in the same sweep, so the in-place
sweep yields 689/1200 for page 1 while the frozen-snapshot sweep yields
1/3. -/
theorem sweep_ne_syncSweep :
    dictGet 0 1 (sweep [(0, [1]), (1, [0]), (2, [0])] DAMPING
      [(0, 1/3), (1, 1/3), (2, 1/3)]).1 = 689/1200 ∧
    dictGet 0 1 (syncSweep [(0, [1]), (1, [0]), (2, [0])] DAMPING
      [(0, 1/3), (1, 1/3), (2, 1/3)]) = 1/3 ∧
    (689/1200 : ℚ) ≠ 1/3 := by
  refine ⟨?_, ?_, by norm_num⟩
  · norm_num [sweep, codeNewRank, pageLink, corpusLinks, dictGet, dictUpdate, dictKeys,
      DAMPING, List.filter]
  · norm_num [syncSweep, codeNewRank, pageLink, corpusLinks, dictGet, dictUpdate, dictKeys,
      DAMPING, List.filter]

/-- C2, amended: a sweep updates the rank dict in place in corpus key
order, so its outcome depends on the processing order: permuting the
corpus entries changes the rank the sweep assigns to page 0 (37/60 in the
order 0,1,2 versus 451/1200 in the order 2,1,0). -/
theorem sweep_depends_on_processing_order :
    ([(0, [1]), (1, [0]), (2, [0])] : List (ℕ × List ℕ)).Perm
      [(2, [0]), (1, [0]), (0, [1])] ∧
    dictGet 0 0 (sweep [(0, [1]), (1, [0]), (2, [0])] DAMPING
      [(0, 1/3), (1, 1/3), (2, 1/3)]).1 ≠
    dictGet 0 0 (sweep [(2, [0]), (1, [0]), (0, [1])] DAMPING
      [(0, 1/3), (1, 1/3), (2, 1/3)]).1 := by
  constructor
  · decide
  · norm_num [sweep, codeNewRank, pageLink, corpusLinks, dictGet, dictUpdate, dictKeys,
      DAMPING, List.filter]

/-- C6 (refuted on the code for the iterative half): on the corpus
0 ↦ [1], 1 ↦ [] the iteration converges (in two sweeps) to ranks summing
to 171/800 ≈ 0.214, far outside 1e-3 of 1: the dangling page's mass is
lost every sweep. -/
theorem iterate_pagerank_sum_not_one_on_dangling :
    (iterate_pagerank [(0, [1]), (1, [])] DAMPING 5).map sumValues = some (171/800) ∧
    ¬ |(1 : ℚ) - 171/800| ≤ 1/1000 := by
  constructor
  · norm_num [iterate_pagerank, iterateAux, sweep, codeNewRank, pageLink, corpusLinks,
      dictGet, dictUpdate, dictKeys, DAMPING, List.filter, sumValues, abs_le]
  · rw [abs_le]
    norm_num

/-- Embedding of `sample_pagerank(corpus, damping_factor, n)`, with the
randomness made explicit: `picks` is the list of the `n` successively
chosen pages (the initial uniform choice followed by the `n-1` draws
weighted by the transition model; every draw yields a corpus page).  Each
pick increments that page's counter, and every counter is divided by `n`
at the end. -/
def sample_pagerank (corpus : List (ℕ × List ℕ)) (n : ℕ) (picks : List ℕ) :
    List (ℕ × ℚ) :=
  let pr0 : List (ℕ × ℚ) := corpus.map (fun kv => (kv.1, 0))
  let counts := picks.foldl (fun pr page => dictUpdate page (dictGet 0 page pr + 1) pr) pr0
  counts.map (fun kv => (kv.1, kv.2 / (n : ℚ)))

theorem sumValues_update_add (k : ℕ) (c : ℚ) (m : List (ℕ × ℚ)) :
    sumValues (dictUpdate k (dictGet 0 k m + c) m) = sumValues m + c := by
  induction m with
  | nil => simp [dictUpdate, dictGet, sumValues]
  | cons kv rest ih =>
    obtain ⟨k2, w⟩ := kv
    by_cases h : k2 = k
    · simp [dictUpdate, dictGet, sumValues, h]
      ring
    · simp only [dictUpdate, if_neg h, dictGet, sumValues, List.map_cons, List.sum_cons] at ih ⊢
      rw [ih]
      ring

theorem sumValues_count_fold (picks : List ℕ) :
    ∀ m0 : List (ℕ × ℚ),
      sumValues (picks.foldl (fun pr page => dictUpdate page (dictGet 0 page pr + 1) pr) m0) =
      sumValues m0 + (picks.length : ℚ) := by
  induction picks with
  | nil => intro m0; simp
  | cons a rest ih =>
    intro m0
    simp only [List.foldl_cons, List.length_cons]
    rw [ih (dictUpdate a (dictGet 0 a m0 + 1) m0), sumValues_update_add]
    push_cast
    ring

/-- For every outcome of the random draws, the sampling estimate sums to
exactly 1: the counters sum to the number of samples. -/
theorem sample_pagerank_sum_eq_one (corpus : List (ℕ × List ℕ)) (n : ℕ) (picks : List ℕ)
    (hlen : picks.length = n) (hn : n ≠ 0)
    (hmem : ∀ p ∈ picks, p ∈ dictKeys corpus) :
    sumValues (sample_pagerank corpus n picks) = 1 := by
  have hzero : ∀ c2 : List (ℕ × List ℕ), sumValues (c2.map (fun kv => (kv.1, (0:ℚ)))) = 0 := by
    intro c2
    induction c2 with
    | nil => simp [sumValues]
    | cons kv rest ih => simpa [sumValues] using ih
  have hdiv : ∀ m : List (ℕ × ℚ),
      sumValues (m.map (fun kv => (kv.1, kv.2 / (n : ℚ)))) = sumValues m / (n : ℚ) := by
    intro m
    induction m with
    | nil => simp [sumValues]
    | cons kv rest ih =>
      simp only [sumValues, List.map_cons, List.sum_cons] at ih ⊢
      rw [ih]
      ring
  have hnQ : ((n : ℕ) : ℚ) ≠ 0 := Nat.cast_ne_zero.mpr hn
  simp only [sample_pagerank]
  rw [hdiv, sumValues_count_fold, hzero, hlen]
  field_simp

/-- One record of the population dict of `heredity.py`: optional mother and
father (person identifiers) and optional trait evidence. -/
structure PersonData where
  mother : Option ℕ
  father : Option ℕ
  trait : Option Bool
deriving DecidableEq, Repr

/-- The unconditional gene-count prior `PROBS["gene"]`:
2 ↦ 0.01, 1 ↦ 0.03, 0 ↦ 0.96. -/
def PROBS_gene (g : ℕ) : ℚ :=
  if g = 2 then 1/100 else if g = 1 then 3/100 else 96/100

/-- The conditional trait table `PROBS["trait"]`. -/
def PROBS_trait (g : ℕ) (t : Bool) : ℚ :=
  if g = 2 then (if t then 65/100 else 35/100)
  else if g = 1 then (if t then 56/100 else 44/100)
  else (if t then 1/100 else 99/100)

/-- The mutation probability `PROBS["mutation"] = 0.01`. -/
def PROBS_mutation : ℚ := 1/100

/-- Membership of an optional identifier in a set (Python's `x in s` where
`x` may be `None`; `None` is a member of no set of names). -/
def memOpt (x : Option ℕ) (s : List ℕ) : Bool :=
  match x with
  | some p => decide (p ∈ s)
  | none => false

/-- The probability that a parent passes the gene on, as
`joint_probability` computes it from the world: `0.5 - mutation` when the
parent is in `one_gene`, `1 - mutation` when in `two_genes`, `mutation`
otherwise. -/
def parentPass (one_gene two_genes : List ℕ) (parent : Option ℕ) : ℚ :=
  if memOpt parent one_gene then 1/2 - PROBS_mutation
  else if memOpt parent two_genes then 1 - PROBS_mutation
  else PROBS_mutation

/-- The gene count a world assigns to a person: 1 if in `one_gene`,
else 2 if in `two_genes`, else 0 (exactly the branch order of the code). -/
def geneCount (one_gene two_genes : List ℕ) (p : ℕ) : ℕ :=
  if p ∈ one_gene then 1 else if p ∈ two_genes then 2 else 0

/-- The per-person gene factor of `joint_probability`: for a person with a
recorded mother, combine the two parental transmission probabilities
according to the person's own bucket; otherwise read the prior. -/
def probGeneOf (one_gene two_genes : List ℕ) (person : ℕ) (pd : PersonData) : ℚ :=
  match pd.mother with
  | some m =>
    let pm := parentPass one_gene two_genes (some m)
    let pnm := 1 - pm
    let pf := parentPass one_gene two_genes pd.father
    let pnf := 1 - pf
    if person ∈ one_gene then pm * pnf + pf * pnm
    else if person ∈ two_genes then pm * pf
    else pnm * pnf
  | none =>
    if person ∈ one_gene then PROBS_gene 1
    else if person ∈ two_genes then PROBS_gene 2
    else PROBS_gene 0

/-- Embedding of `joint_probability(people, one_gene, two_genes,
have_trait)`: the product over all persons of the gene factor times the
trait factor, accumulated like the code's `final_prob *= prob` loop. -/
def joint_probability (people : List (ℕ × PersonData)) (one_gene two_genes have_trait : List ℕ) :
    ℚ :=
  people.foldl (fun final_prob kv =>
    final_prob * (probGeneOf one_gene two_genes kv.1 kv.2 *
      PROBS_trait (geneCount one_gene two_genes kv.1) (decide (kv.1 ∈ have_trait)))) 1

/-- The transmission probability of the specification as a function of the
parent's assigned gene count: `pass(2) = 1 - mu`, `pass(1) = 0.5 - mu`,
`pass(0) = mu`. -/
def passFn (g : ℕ) : ℚ :=
  if g = 2 then 1 - PROBS_mutation else if g = 1 then 1/2 - PROBS_mutation else PROBS_mutation

/-- The per-person gene factor exactly as claim C4 states it: for a person
with both parents recorded, `pm`/`pf` are `pass` of the parents' assigned
counts and the child's factor is chosen by its assigned count
(`pm·pf`, `pm·(1-pf)+pf·(1-pm)`, `(1-pm)·(1-pf)`); a person without
recorded parents gets the prior of their assigned count. -/
def specGeneFactor (one_gene two_genes : List ℕ) (person : ℕ) (pd : PersonData) : ℚ :=
  match pd.mother, pd.father with
  | some m, some f =>
    let pm := passFn (geneCount one_gene two_genes m)
    let pf := passFn (geneCount one_gene two_genes f)
    match geneCount one_gene two_genes person with
    | 2 => pm * pf
    | 1 => pm * (1 - pf) + pf * (1 - pm)
    | _ => (1 - pm) * (1 - pf)
  | _, _ => PROBS_gene (geneCount one_gene two_genes person)

/-- The joint probability exactly as claim C4 states it: the product over
all persons of gene factor times trait factor. -/
def specJointProbability (people : List (ℕ × PersonData))
    (one_gene two_genes have_trait : List ℕ) : ℚ :=
  (people.map (fun kv => specGeneFactor one_gene two_genes kv.1 kv.2 *
    PROBS_trait (geneCount one_gene two_genes kv.1) (decide (kv.1 ∈ have_trait)))).prod

theorem list_foldl_mul_eq_prod {α : Type} (l : List α) (f : α → ℚ) :
    ∀ c : ℚ, l.foldl (fun acc x => acc * f x) c = c * (l.map f).prod := by
  induction l with
  | nil => intro c; simp
  | cons a rest ih =>
    intro c
    simp only [List.foldl_cons, List.map_cons, List.prod_cons]
    rw [ih]
    ring

theorem parentPass_eq_passFn (one_gene two_genes : List ℕ) (m : ℕ) :
    parentPass one_gene two_genes (some m) = passFn (geneCount one_gene two_genes m) := by
  by_cases h1 : m ∈ one_gene
  · simp [parentPass, memOpt, passFn, geneCount, h1]
  · by_cases h2 : m ∈ two_genes
    · simp [parentPass, memOpt, passFn, geneCount, h1, h2]
    · simp [parentPass, memOpt, passFn, geneCount, h1, h2]

theorem probGeneOf_eq_specGeneFactor (one_gene two_genes : List ℕ) (person : ℕ)
    (pd : PersonData) (hpair : pd.mother.isSome = pd.father.isSome) :
    probGeneOf one_gene two_genes person pd = specGeneFactor one_gene two_genes person pd := by
  rcases hm : pd.mother with _ | m
  · rcases hf : pd.father with _ | f
    · simp only [probGeneOf, specGeneFactor, hm, hf, geneCount]
      by_cases h1 : person ∈ one_gene
      · simp [h1]
      · by_cases h2 : person ∈ two_genes
        · simp [h1, h2]
        · simp [h1, h2]
    · rw [hm, hf] at hpair
      simp at hpair
  · rcases hf : pd.father with _ | f
    · rw [hm, hf] at hpair
      simp at hpair
    · simp only [probGeneOf, specGeneFactor, hm, hf]
      rw [parentPass_eq_passFn, parentPass_eq_passFn]
      by_cases h1 : person ∈ one_gene
      · have hc : geneCount one_gene two_genes person = 1 := by simp [geneCount, h1]
        rw [hc]
        simp [h1]
      · by_cases h2 : person ∈ two_genes
        · have hc : geneCount one_gene two_genes person = 2 := by simp [geneCount, h1, h2]
          rw [hc]
          simp [h1, h2]
        · have hc : geneCount one_gene two_genes person = 0 := by simp [geneCount, h1, h2]
          rw [hc]
          simp [h1, h2]

/-- C4: for disjoint gene sets and a population whose records have either
both parents or neither, `joint_probability` returns exactly the product,
over all persons, of the claimed gene factor (prior for founders,
transmission combination for children) and the claimed trait factor. -/
theorem joint_probability_eq_spec (people : List (ℕ × PersonData))
    (one_gene two_genes have_trait : List ℕ)
    (hdisj : ∀ p ∈ one_gene, p ∉ two_genes)
    (hpair : ∀ kv ∈ people, kv.2.mother.isSome = kv.2.father.isSome) :
    joint_probability people one_gene two_genes have_trait =
      specJointProbability people one_gene two_genes have_trait := by
  unfold joint_probability specJointProbability
  rw [list_foldl_mul_eq_prod people
    (fun kv => probGeneOf one_gene two_genes kv.1 kv.2 *
      PROBS_trait (geneCount one_gene two_genes kv.1) (decide (kv.1 ∈ have_trait))) 1,
    one_mul]
  apply congrArg
  apply List.map_congr_left
  intro kv hkv
  rw [probGeneOf_eq_specGeneFactor _ _ _ _ (hpair kv hkv)]

theorem joint_probability_eq_spec_witness :
    ((∀ p ∈ [0], p ∉ [1]) ∧
      (∀ kv ∈ [(0, PersonData.mk none none (some true)),
        (1, PersonData.mk (some 0) (some 0) none)], kv.2.mother.isSome = kv.2.father.isSome)) ∧
    joint_probability [(0, PersonData.mk none none (some true)),
        (1, PersonData.mk (some 0) (some 0) none)] [0] [1] [0] =
      specJointProbability [(0, PersonData.mk none none (some true)),
        (1, PersonData.mk (some 0) (some 0) none)] [0] [1] [0] :=
  ⟨⟨by decide, by decide⟩,
    joint_probability_eq_spec _ [0] [1] [0] (by decide) (by decide)⟩

/-- Embedding of `powerset(s)`: the list of all subsets of `s`.  The code
enumerates subsets by size via `itertools.combinations`; this recursion
yields the same collection of subsets (each exactly once for a
duplicate-free input) in a different order, and no claim depends on the
enumeration order. -/
def powerset : List ℕ → List (List ℕ)
  | [] => [[]]
  | x :: xs => powerset xs ++ (powerset xs).map (fun s => x :: s)

/-- The population's names (`set(people)`, in dict key order). -/
def names (people : List (ℕ × PersonData)) : List ℕ := people.map Prod.fst

/-- The evidence filter of `main`: a trait subset violates known
information when some person's recorded trait differs from their
membership in the subset. -/
def failsEvidence (people : List (ℕ × PersonData)) (have_trait : List ℕ) : Bool :=
  people.any (fun kv =>
    match kv.2.trait with
    | some t => decide (t ≠ decide (kv.1 ∈ have_trait))
    | none => false)

/-- The worlds `main` enumerates and accumulates: every trait subset that
passes the evidence filter, paired with every `one_gene` subset of the
names and every `two_genes` subset of the names remaining after removing
`one_gene`. -/
def enumWorlds (people : List (ℕ × PersonData)) : List (List ℕ × List ℕ × List ℕ) :=
  ((powerset (names people)).filter (fun ht => !failsEvidence people ht)).flatMap (fun ht =>
    (powerset (names people)).flatMap (fun one =>
      (powerset ((names people).filter (fun p => !decide (p ∈ one)))).map
        (fun two => (one, two, ht))))

/-- The running accumulator tables of `main` (`probabilities`): `gene`
maps (person, gene count) to accumulated mass, `trait` maps
(person, trait value) to accumulated mass. -/
structure Accum where
  gene : ℕ × ℕ → ℚ
  trait : ℕ × Bool → ℚ

/-- Embedding of `update(probabilities, one_gene, two_genes, have_trait, p)`:
for every person, add `p` to the bucket of their assigned gene count and
to the bucket of their trait membership. -/
def update (persons : List ℕ) (one_gene two_genes have_trait : List ℕ) (p : ℚ)
    (acc : Accum) : Accum :=
  persons.foldl (fun acc2 person =>
    { gene := Function.update acc2.gene (person, geneCount one_gene two_genes person)
        (acc2.gene (person, geneCount one_gene two_genes person) + p),
      trait := Function.update acc2.trait (person, decide (person ∈ have_trait))
        (acc2.trait (person, decide (person ∈ have_trait)) + p) }) acc

/-- The accumulation loop of `main`: fold `update` with each world's joint
probability over every enumerated world, starting from all-zero tables. -/
def mainAccum (people : List (ℕ × PersonData)) : Accum :=
  (enumWorlds people).foldl (fun acc w =>
    update (names people) w.1 w.2.1 w.2.2 (joint_probability people w.1 w.2.1 w.2.2) acc)
    ⟨fun _ => 0, fun _ => 0⟩

/-- The failure Python's `normalize` can raise. -/
inductive HeredityErr where
  | zeroDivision
deriving DecidableEq, Repr

/-- Embedding of the body of `normalize` for one person: sum the three
gene buckets and rescale by the reciprocal, then the two trait buckets
likewise.  Python's `constant = 1 / prob_sum` raises an unhandled
`ZeroDivisionError` when the sum is zero; that is the `Except.error`
case. -/
def normalizePerson (g : ℕ → ℚ) (t : Bool → ℚ) :
    Except HeredityErr ((ℕ → ℚ) × (Bool → ℚ)) :=
  let prob_sum := 0 + g 0 + g 1 + g 2
  if prob_sum = 0 then Except.error HeredityErr.zeroDivision
  else
    let tsum := t false + t true
    if tsum = 0 then Except.error HeredityErr.zeroDivision
    else Except.ok (fun k => g k * (1 / prob_sum), fun b => t b * (1 / tsum))

/-- The normalized gene distribution `main` reports for `person` (the
healthy path of `normalize`): the accumulated bucket for gene count `g`
divided by the sum of the person's three buckets. -/
def geneDistribution (people : List (ℕ × PersonData)) (person g : ℕ) : ℚ :=
  (mainAccum people).gene (person, g) /
    ((mainAccum people).gene (person, 0) + (mainAccum people).gene (person, 1) +
      (mainAccum people).gene (person, 2))

/-- C7 (refuted on the code): on all-zero accumulators — the state the
claim describes when no enumerated world passes the evidence filter —
`normalize` evaluates `1 / 0`, so the run dies with a bare, unhandled
`ZeroDivisionError`; no `ContradictoryEvidenceError` is defined, detected
or reported anywhere in the program. -/
theorem normalize_zero_sums_is_zero_division :
    normalizePerson (fun _ => 0) (fun _ => 0) = Except.error HeredityErr.zeroDivision := by
  simp [normalizePerson]

theorem powerset_subset (l : List ℕ) : ∀ t ∈ powerset l, t ⊆ l := by
  induction l with
  | nil =>
    intro t ht
    simp only [powerset, List.mem_singleton] at ht
    simp [ht]
  | cons x xs ih =>
    intro t ht
    simp only [powerset, List.mem_append, List.mem_map] at ht
    rcases ht with h | ⟨s, hs, rfl⟩
    · exact fun y hy => List.mem_cons_of_mem _ (ih t h hy)
    · intro y hy
      rcases List.mem_cons.mp hy with rfl | hy2
      · simp
      · exact List.mem_cons_of_mem _ (ih s hs hy2)

theorem powerset_nodup_mem (l : List ℕ) (hnd : l.Nodup) : ∀ t ∈ powerset l, t.Nodup := by
  induction l with
  | nil =>
    intro t ht
    simp only [powerset, List.mem_singleton] at ht
    simp [ht]
  | cons x xs ih =>
    intro t ht
    have hx : x ∉ xs := (List.nodup_cons.mp hnd).1
    have hxs := (List.nodup_cons.mp hnd).2
    simp only [powerset, List.mem_append, List.mem_map] at ht
    rcases ht with h | ⟨s, hs, rfl⟩
    · exact ih hxs t h
    · refine List.nodup_cons.mpr ⟨fun hxsmem => hx (powerset_subset xs s hs hxsmem), ih hxs s hs⟩

theorem list_sum_map_ite_one {α : Type} (l : List α) (p : α → Prop) [DecidablePred p] :
    (l.map (fun a => if p a then (1:ℕ) else 0)).sum = l.countP (fun a => decide (p a)) := by
  induction l with
  | nil => rfl
  | cons a rest ih =>
    by_cases h : p a
    · simp [List.countP_cons, h, ih, Nat.add_comm]
    · simp [List.countP_cons, h, ih]

theorem list_sum_map_mul_right_nat {α : Type} (l : List α) (f : α → ℕ) (c : ℕ) :
    (l.map (fun a => f a * c)).sum = (l.map f).sum * c := by
  induction l with
  | nil => simp
  | cons a rest ih => simp [ih, Nat.add_mul]

theorem countP_flatMap {α β : Type} (l : List α) (f : α → List β) (p : β → Bool) :
    (l.flatMap f).countP p = (l.map (fun a => (f a).countP p)).sum := by
  induction l with
  | nil => rfl
  | cons a rest ih => simp [List.flatMap_cons, List.countP_append, ih]

/-- Each subset of a duplicate-free list occurs exactly once in its
powerset (counted up to the set of elements). -/
theorem powerset_countP_toFinset (l : List ℕ) :
    l.Nodup → ∀ s : Finset ℕ,
      (powerset l).countP (fun t => decide (t.toFinset = s)) =
        if s ⊆ l.toFinset then 1 else 0 := by
  induction l with
  | nil =>
    intro _ s
    by_cases h : s = ∅
    · subst h
      simp [powerset, List.countP_cons]
    · have h2 : ¬ s ⊆ ∅ := fun hsub => h (Finset.subset_empty.mp hsub)
      simp only [powerset, List.toFinset_nil]
      rw [if_neg h2]
      simp [List.countP_cons, Ne.symm h]
  | cons x xs ih =>
    intro hnd s
    have hx : x ∉ xs := (List.nodup_cons.mp hnd).1
    have hxs := (List.nodup_cons.mp hnd).2
    have hxtf : x ∉ xs.toFinset := by simpa using hx
    simp only [powerset, List.countP_append, List.countP_map]
    rw [ih hxs s]
    by_cases hxins : x ∈ s
    · have h1 : ¬ s ⊆ xs.toFinset := fun h => hxtf (h hxins)
      rw [if_neg h1]
      have hcong : (powerset xs).countP
          ((fun t => decide (t.toFinset = s)) ∘ (fun s2 => x :: s2)) =
          (powerset xs).countP (fun t => decide (t.toFinset = s.erase x)) := by
        apply List.countP_congr
        intro t ht
        simp only [Function.comp_apply, decide_eq_true_eq, List.toFinset_cons]
        have hxt : x ∉ t.toFinset := by
          simp only [List.mem_toFinset]
          exact fun hmem => hx (powerset_subset xs t ht hmem)
        constructor
        · intro he
          rw [← he, Finset.erase_insert hxt]
        · intro he
          rw [he, Finset.insert_erase hxins]
      rw [hcong, ih hxs (s.erase x), zero_add]
      congr 1
      rw [List.toFinset_cons]
      rw [eq_iff_iff]
      exact (Finset.subset_insert_iff).symm
    · have hzero : (powerset xs).countP
          ((fun t => decide (t.toFinset = s)) ∘ (fun s2 => x :: s2)) = 0 := by
        rw [List.countP_eq_zero]
        intro t ht
        simp only [Function.comp_apply, decide_eq_true_eq, List.toFinset_cons]
        intro he
        exact hxins (he ▸ Finset.mem_insert_self x t.toFinset)
      rw [hzero, Nat.add_zero, List.toFinset_cons]
      congr 1
      rw [eq_iff_iff]
      exact (Finset.subset_insert_iff_of_not_mem hxins).symm

/-- The evidence check of `main`, stated on the set of trait carriers. -/
def consistentTraits (people : List (ℕ × PersonData)) (s : Finset ℕ) : Bool :=
  !(people.any (fun kv =>
    match kv.2.trait with
    | some t => decide (t ≠ decide (kv.1 ∈ s))
    | none => false))

theorem list_any_congr {α : Type} (l : List α) (p q : α → Bool)
    (h : ∀ a ∈ l, p a = q a) : l.any p = l.any q := by
  induction l with
  | nil => rfl
  | cons a rest ih =>
    simp only [List.any_cons]
    rw [h a (by simp), ih (fun b hb => h b (by simp [hb]))]

/-- The evidence filter depends only on the set of names in the trait
subset. -/
theorem failsEvidence_toFinset (people : List (ℕ × PersonData)) (ht : List ℕ) :
    (!failsEvidence people ht) = consistentTraits people ht.toFinset := by
  unfold failsEvidence consistentTraits
  congr 1
  apply list_any_congr
  intro kv _
  cases htr : kv.2.trait with
  | none => simp [htr]
  | some t => simp [htr, List.mem_toFinset]

theorem enumWorlds_count_two (people : List (ℕ × PersonData)) (hnd : (names people).Nodup)
    (s₁ s₂ s₃ : Finset ℕ) (ht one : List ℕ) :
    ((powerset ((names people).filter (fun p => !decide (p ∈ one)))).map
      (fun two => (one, two, ht))).countP (fun w =>
        decide (w.1.toFinset = s₁ ∧ w.2.1.toFinset = s₂ ∧ w.2.2.toFinset = s₃)) =
    if one.toFinset = s₁ ∧ ht.toFinset = s₃ ∧ s₂ ⊆ (names people).toFinset \ s₁ then 1
    else 0 := by
  rw [List.countP_map]
  by_cases hcase : one.toFinset = s₁ ∧ ht.toFinset = s₃
  · have hcong : (powerset ((names people).filter (fun p => !decide (p ∈ one)))).countP
        ((fun w => decide (w.1.toFinset = s₁ ∧ w.2.1.toFinset = s₂ ∧ w.2.2.toFinset = s₃)) ∘
          (fun two => (one, two, ht))) =
        (powerset ((names people).filter (fun p => !decide (p ∈ one)))).countP
          (fun two => decide (two.toFinset = s₂)) := by
      apply List.countP_congr
      intro two _
      simp [hcase.1, hcase.2]
    rw [hcong]
    have hndf : ((names people).filter (fun p => !decide (p ∈ one))).Nodup := hnd.filter _
    rw [powerset_countP_toFinset _ hndf s₂]
    have htf : ((names people).filter (fun p => !decide (p ∈ one))).toFinset =
        (names people).toFinset \ s₁ := by
      ext a
      simp [List.mem_toFinset, List.mem_filter, Finset.mem_sdiff, ← hcase.1]
    rw [htf]
    by_cases h2 : s₂ ⊆ (names people).toFinset \ s₁
    · rw [if_pos h2, if_pos ⟨hcase.1, hcase.2, h2⟩]
    · rw [if_neg h2, if_neg (fun h => h2 h.2.2)]
  · have hzero : (powerset ((names people).filter (fun p => !decide (p ∈ one)))).countP
        ((fun w => decide (w.1.toFinset = s₁ ∧ w.2.1.toFinset = s₂ ∧ w.2.2.toFinset = s₃)) ∘
          (fun two => (one, two, ht))) = 0 := by
      rw [List.countP_eq_zero]
      intro two _
      simp only [Function.comp_apply, decide_eq_true_eq]
      intro hcontr
      exact hcase ⟨hcontr.1, hcontr.2.2⟩
    rw [hzero]
    have : ¬ (one.toFinset = s₁ ∧ ht.toFinset = s₃ ∧
        s₂ ⊆ (names people).toFinset \ s₁) := fun h => hcase ⟨h.1, h.2.1⟩
    rw [if_neg this]

theorem enumWorlds_count_one (people : List (ℕ × PersonData)) (hnd : (names people).Nodup)
    (s₁ s₂ s₃ : Finset ℕ) (ht : List ℕ) :
    ((powerset (names people)).flatMap (fun one =>
      (powerset ((names people).filter (fun p => !decide (p ∈ one)))).map
        (fun two => (one, two, ht)))).countP (fun w =>
          decide (w.1.toFinset = s₁ ∧ w.2.1.toFinset = s₂ ∧ w.2.2.toFinset = s₃)) =
    (if ht.toFinset = s₃ then 1 else 0) *
      (if s₁ ⊆ (names people).toFinset ∧ s₂ ⊆ (names people).toFinset \ s₁ then 1 else 0) := by
  rw [countP_flatMap]
  rw [List.map_congr_left (fun one _ => enumWorlds_count_two people hnd s₁ s₂ s₃ ht one)]
  by_cases h3 : ht.toFinset = s₃
  · by_cases h2 : s₂ ⊆ (names people).toFinset \ s₁
    · have hcong : (powerset (names people)).map (fun one =>
          if one.toFinset = s₁ ∧ ht.toFinset = s₃ ∧
            s₂ ⊆ (names people).toFinset \ s₁ then 1 else 0) =
          (powerset (names people)).map (fun one => if one.toFinset = s₁ then (1:ℕ) else 0) := by
        apply List.map_congr_left
        intro one _
        by_cases h1 : one.toFinset = s₁
        · rw [if_pos ⟨h1, h3, h2⟩, if_pos h1]
        · rw [if_neg (show ¬(one.toFinset = s₁ ∧ ht.toFinset = s₃ ∧ s₂ ⊆ (names people).toFinset \ s₁) from fun h => h1 h.1), if_neg h1]
      rw [hcong, list_sum_map_ite_one, powerset_countP_toFinset _ hnd s₁]
      by_cases h1 : s₁ ⊆ (names people).toFinset
      · rw [if_pos h1, if_pos h3, if_pos ⟨h1, h2⟩]
      · rw [if_neg h1, if_neg (show ¬(s₁ ⊆ (names people).toFinset ∧ s₂ ⊆ (names people).toFinset \ s₁) from fun h => h1 h.1)]
        simp
    · have hcong : (powerset (names people)).map (fun one =>
          if one.toFinset = s₁ ∧ ht.toFinset = s₃ ∧
            s₂ ⊆ (names people).toFinset \ s₁ then 1 else 0) =
          (powerset (names people)).map (fun _ => (0:ℕ)) := by
        apply List.map_congr_left
        intro one _
        rw [if_neg (show ¬(one.toFinset = s₁ ∧ ht.toFinset = s₃ ∧ s₂ ⊆ (names people).toFinset \ s₁) from fun h => h2 h.2.2)]
      rw [hcong]
      rw [if_neg
        (fun h : s₁ ⊆ (names people).toFinset ∧ s₂ ⊆ (names people).toFinset \ s₁ => h2 h.2)]
      simp
  · have hcong : (powerset (names people)).map (fun one =>
        if one.toFinset = s₁ ∧ ht.toFinset = s₃ ∧
          s₂ ⊆ (names people).toFinset \ s₁ then 1 else 0) =
        (powerset (names people)).map (fun _ => (0:ℕ)) := by
      apply List.map_congr_left
      intro one _
      rw [if_neg (show ¬(one.toFinset = s₁ ∧ ht.toFinset = s₃ ∧ s₂ ⊆ (names people).toFinset \ s₁) from fun h => h3 h.2.1)]
    rw [hcong]
    simp [h3]

/-- Counting half of C5: for a duplicate-free population, each well-formed
evidence-consistent world appears exactly once in the enumeration of
`main`, and every other triple of sets appears zero times. -/
theorem enumWorlds_countP (people : List (ℕ × PersonData))
    (hnd : (names people).Nodup) (s₁ s₂ s₃ : Finset ℕ) :
    (enumWorlds people).countP (fun w =>
      decide (w.1.toFinset = s₁ ∧ w.2.1.toFinset = s₂ ∧ w.2.2.toFinset = s₃)) =
    if s₁ ⊆ (names people).toFinset ∧ s₂ ⊆ (names people).toFinset \ s₁ ∧
        s₃ ⊆ (names people).toFinset ∧ consistentTraits people s₃ = true then 1 else 0 := by
  unfold enumWorlds
  rw [countP_flatMap]
  rw [List.map_congr_left (fun ht _ => enumWorlds_count_one people hnd s₁ s₂ s₃ ht)]
  rw [list_sum_map_mul_right_nat
    ((powerset (names people)).filter (fun ht => !failsEvidence people ht))
    (fun ht => if ht.toFinset = s₃ then 1 else 0)
    (if s₁ ⊆ (names people).toFinset ∧ s₂ ⊆ (names people).toFinset \ s₁ then 1 else 0)]
  rw [list_sum_map_ite_one
    ((powerset (names people)).filter (fun ht => !failsEvidence people ht))
    (fun ht => ht.toFinset = s₃)]
  rw [List.countP_filter]
  have hcong : (powerset (names people)).countP (fun a =>
      decide (a.toFinset = s₃) && !failsEvidence people a) =
      (powerset (names people)).countP (fun a =>
        decide (a.toFinset = s₃) && consistentTraits people s₃) := by
    apply List.countP_congr
    intro a _
    by_cases h : a.toFinset = s₃
    · rw [failsEvidence_toFinset people a, h]
    · simp [h]
  rw [hcong]
  by_cases hc : consistentTraits people s₃ = true
  · have : (powerset (names people)).countP (fun a =>
        decide (a.toFinset = s₃) && consistentTraits people s₃) =
        (powerset (names people)).countP (fun a => decide (a.toFinset = s₃)) := by
      apply List.countP_congr
      intro a _
      simp [hc]
    rw [this, powerset_countP_toFinset _ hnd s₃]
    by_cases h3 : s₃ ⊆ (names people).toFinset
    · rw [if_pos h3]
      by_cases h12 : s₁ ⊆ (names people).toFinset ∧ s₂ ⊆ (names people).toFinset \ s₁
      · rw [if_pos h12, if_pos ⟨h12.1, h12.2, h3, hc⟩]
      · rw [if_neg h12, if_neg (show ¬(s₁ ⊆ (names people).toFinset ∧ s₂ ⊆ (names people).toFinset \ s₁ ∧ s₃ ⊆ (names people).toFinset ∧ consistentTraits people s₃ = true) from fun h => h12 ⟨h.1, h.2.1⟩)]
    · rw [if_neg h3, if_neg (show ¬(s₁ ⊆ (names people).toFinset ∧ s₂ ⊆ (names people).toFinset \ s₁ ∧ s₃ ⊆ (names people).toFinset ∧ consistentTraits people s₃ = true) from fun h => h3 h.2.2.1)]
      simp
  · have : (powerset (names people)).countP (fun a =>
        decide (a.toFinset = s₃) && consistentTraits people s₃) = 0 := by
      rw [List.countP_eq_zero]
      intro a _
      simp [hc]
    rw [this, if_neg (show ¬(s₁ ⊆ (names people).toFinset ∧ s₂ ⊆ (names people).toFinset \ s₁ ∧ s₃ ⊆ (names people).toFinset ∧ consistentTraits people s₃ = true) from fun h => hc h.2.2.2)]
    simp

theorem update_gene_apply (one_gene two_genes have_trait : List ℕ) (p : ℚ) :
    ∀ (persons : List ℕ) (acc : Accum) (q g : ℕ), persons.Nodup →
      (update persons one_gene two_genes have_trait p acc).gene (q, g) =
        acc.gene (q, g) +
          if q ∈ persons ∧ geneCount one_gene two_genes q = g then p else 0 := by
  intro persons
  induction persons with
  | nil =>
    intro acc q g _
    simp [update]
  | cons a rest ih =>
    intro acc q g hnd
    have hstep : update (a :: rest) one_gene two_genes have_trait p acc =
        update rest one_gene two_genes have_trait p
          ⟨Function.update acc.gene (a, geneCount one_gene two_genes a)
              (acc.gene (a, geneCount one_gene two_genes a) + p),
            Function.update acc.trait (a, decide (a ∈ have_trait))
              (acc.trait (a, decide (a ∈ have_trait)) + p)⟩ := rfl
    rw [hstep, ih _ q g (List.nodup_cons.mp hnd).2]
    by_cases hqa : q = a
    · subst hqa
      have hq_rest : q ∉ rest := (List.nodup_cons.mp hnd).1
      by_cases hg : geneCount one_gene two_genes q = g
      · rw [← hg]
        simp [Function.update_apply, hq_rest, hg]
      · have hkey : (q, g) ≠ (q, geneCount one_gene two_genes q) :=
          fun h => hg (Prod.mk.inj h).2.symm
        simp [Function.update_apply, hq_rest, hg, hkey]
    · have hkey : (q, g) ≠ (a, geneCount one_gene two_genes a) :=
        fun h => hqa (Prod.mk.inj h).1
      simp [Function.update_apply, hkey, hqa]

theorem update_trait_apply (one_gene two_genes have_trait : List ℕ) (p : ℚ) :
    ∀ (persons : List ℕ) (acc : Accum) (q : ℕ) (b : Bool), persons.Nodup →
      (update persons one_gene two_genes have_trait p acc).trait (q, b) =
        acc.trait (q, b) +
          if q ∈ persons ∧ decide (q ∈ have_trait) = b then p else 0 := by
  intro persons
  induction persons with
  | nil =>
    intro acc q b _
    simp [update]
  | cons a rest ih =>
    intro acc q b hnd
    have hstep : update (a :: rest) one_gene two_genes have_trait p acc =
        update rest one_gene two_genes have_trait p
          ⟨Function.update acc.gene (a, geneCount one_gene two_genes a)
              (acc.gene (a, geneCount one_gene two_genes a) + p),
            Function.update acc.trait (a, decide (a ∈ have_trait))
              (acc.trait (a, decide (a ∈ have_trait)) + p)⟩ := rfl
    rw [hstep, ih _ q b (List.nodup_cons.mp hnd).2]
    by_cases hqa : q = a
    · subst hqa
      have hq_rest : q ∉ rest := (List.nodup_cons.mp hnd).1
      by_cases hb : decide (q ∈ have_trait) = b
      · rw [← hb]
        simp [Function.update_apply, hq_rest, hb]
      · have hkey : (q, b) ≠ (q, decide (q ∈ have_trait)) :=
          fun h => hb (Prod.mk.inj h).2.symm
        simp [Function.update_apply, hq_rest, hb, hkey]
    · have hkey : (q, b) ≠ (a, decide (a ∈ have_trait)) :=
        fun h => hqa (Prod.mk.inj h).1
      simp [Function.update_apply, hkey, hqa]

/-- Accumulation half of C5 (gene axis): after the accumulation loop, each
person's bucket for gene count `g` holds the sum, over the enumerated
worlds assigning them `g`, of that world's joint probability — each world
contributing exactly once. -/
theorem mainAccum_gene (people : List (ℕ × PersonData)) (hnd : (names people).Nodup)
    (q : ℕ) (hq : q ∈ names people) (g : ℕ) :
    (mainAccum people).gene (q, g) =
      ((enumWorlds people).map (fun w =>
        if geneCount w.1 w.2.1 q = g then joint_probability people w.1 w.2.1 w.2.2
        else 0)).sum := by
  have hfold : ∀ (ws : List (List ℕ × List ℕ × List ℕ)) (acc : Accum),
      (ws.foldl (fun acc2 w =>
        update (names people) w.1 w.2.1 w.2.2
          (joint_probability people w.1 w.2.1 w.2.2) acc2) acc).gene (q, g) =
      acc.gene (q, g) + (ws.map (fun w =>
        if geneCount w.1 w.2.1 q = g then joint_probability people w.1 w.2.1 w.2.2
        else 0)).sum := by
    intro ws
    induction ws with
    | nil => intro acc; simp
    | cons w rest ih =>
      intro acc
      simp only [List.foldl_cons, List.map_cons, List.sum_cons]
      rw [ih, update_gene_apply _ _ _ _ _ _ q g hnd]
      by_cases hg : geneCount w.1 w.2.1 q = g
      · rw [if_pos ⟨hq, hg⟩, if_pos hg]
        ring
      · rw [if_neg (show ¬(q ∈ names people ∧ geneCount w.1 w.2.1 q = g) from
          fun h => hg h.2), if_neg hg]
        ring
  unfold mainAccum
  rw [hfold]
  simp

/-- Accumulation half of C5 (trait axis): after the accumulation loop,
each person's bucket for trait value `b` holds the sum, over the
enumerated worlds in which their trait membership is `b`, of that world's
joint probability. -/
theorem mainAccum_trait (people : List (ℕ × PersonData)) (hnd : (names people).Nodup)
    (q : ℕ) (hq : q ∈ names people) (b : Bool) :
    (mainAccum people).trait (q, b) =
      ((enumWorlds people).map (fun w =>
        if decide (q ∈ w.2.2) = b then joint_probability people w.1 w.2.1 w.2.2
        else 0)).sum := by
  have hfold : ∀ (ws : List (List ℕ × List ℕ × List ℕ)) (acc : Accum),
      (ws.foldl (fun acc2 w =>
        update (names people) w.1 w.2.1 w.2.2
          (joint_probability people w.1 w.2.1 w.2.2) acc2) acc).trait (q, b) =
      acc.trait (q, b) + (ws.map (fun w =>
        if decide (q ∈ w.2.2) = b then joint_probability people w.1 w.2.1 w.2.2
        else 0)).sum := by
    intro ws
    induction ws with
    | nil => intro acc; simp
    | cons w rest ih =>
      intro acc
      simp only [List.foldl_cons, List.map_cons, List.sum_cons]
      rw [ih, update_trait_apply _ _ _ _ _ _ q b hnd]
      by_cases hb : decide (q ∈ w.2.2) = b
      · rw [if_pos ⟨hq, hb⟩, if_pos hb]
        ring
      · rw [if_neg (show ¬(q ∈ names people ∧ decide (q ∈ w.2.2) = b) from
          fun h => hb h.2), if_neg hb]
        ring
  unfold mainAccum
  rw [hfold]
  simp

/-- C5: for a population with distinct names, the enumeration of `main`
visits each world — a gene partition given by disjoint subsets `s₁` (one
copy) and `s₂` (two copies) of the names, paired with an
evidence-consistent trait subset `s₃` — exactly once and visits nothing
else, and the accumulation adds each visited world's joint probability
exactly once to every person's assigned gene-count bucket and trait
bucket. -/
theorem main_enumerates_each_world_once (people : List (ℕ × PersonData))
    (hnd : (names people).Nodup) :
    (∀ s₁ s₂ s₃ : Finset ℕ,
      (enumWorlds people).countP (fun w =>
        decide (w.1.toFinset = s₁ ∧ w.2.1.toFinset = s₂ ∧ w.2.2.toFinset = s₃)) =
      if s₁ ⊆ (names people).toFinset ∧ s₂ ⊆ (names people).toFinset \ s₁ ∧
          s₃ ⊆ (names people).toFinset ∧ consistentTraits people s₃ = true then 1 else 0) ∧
    (∀ q ∈ names people, ∀ g : ℕ,
      (mainAccum people).gene (q, g) =
        ((enumWorlds people).map (fun w =>
          if geneCount w.1 w.2.1 q = g then joint_probability people w.1 w.2.1 w.2.2
          else 0)).sum) ∧
    (∀ q ∈ names people, ∀ b : Bool,
      (mainAccum people).trait (q, b) =
        ((enumWorlds people).map (fun w =>
          if decide (q ∈ w.2.2) = b then joint_probability people w.1 w.2.1 w.2.2
          else 0)).sum) :=
  ⟨fun s₁ s₂ s₃ => enumWorlds_countP people hnd s₁ s₂ s₃,
   fun q hq g => mainAccum_gene people hnd q hq g,
   fun q hq b => mainAccum_trait people hnd q hq b⟩

theorem main_enumerates_each_world_once_witness :
    (names [(0, PersonData.mk none none (some true))]).Nodup ∧
    (enumWorlds [(0, PersonData.mk none none (some true))]).countP (fun w =>
      decide (w.1.toFinset = ({0} : Finset ℕ) ∧ w.2.1.toFinset = (∅ : Finset ℕ) ∧
        w.2.2.toFinset = ({0} : Finset ℕ))) = 1 ∧
    (mainAccum [(0, PersonData.mk none none (some true))]).gene (0, 1) =
      ((enumWorlds [(0, PersonData.mk none none (some true))]).map (fun w =>
        if geneCount w.1 w.2.1 0 = 1 then
          joint_probability [(0, PersonData.mk none none (some true))] w.1 w.2.1 w.2.2
        else 0)).sum := by
  have h := main_enumerates_each_world_once [(0, PersonData.mk none none (some true))]
    (by decide)
  refine ⟨by decide, ?_, h.2.1 0 (by decide) 1⟩
  rw [h.1 {0} ∅ {0}]
  decide

/-- In a founder-only population the gene factor of every person is the
prior of their assigned count, so the joint probability is a pure product
of per-person prior-times-trait factors. -/
theorem joint_probability_founders (people : List (ℕ × PersonData))
    (hf : ∀ kv ∈ people, kv.2.mother = none) (one_gene two_genes ht : List ℕ) :
    joint_probability people one_gene two_genes ht =
      ((names people).map (fun p =>
        PROBS_gene (geneCount one_gene two_genes p) *
          PROBS_trait (geneCount one_gene two_genes p) (decide (p ∈ ht)))).prod := by
  unfold joint_probability
  rw [list_foldl_mul_eq_prod people (fun kv => probGeneOf one_gene two_genes kv.1 kv.2 *
      PROBS_trait (geneCount one_gene two_genes kv.1) (decide (kv.1 ∈ ht))) 1, one_mul]
  unfold names
  rw [List.map_map]
  apply congrArg
  apply List.map_congr_left
  intro kv hkv
  have hgene : probGeneOf one_gene two_genes kv.1 kv.2 =
      PROBS_gene (geneCount one_gene two_genes kv.1) := by
    simp only [probGeneOf, hf kv hkv]
    by_cases h1 : kv.1 ∈ one_gene
    · simp [geneCount, h1]
    · by_cases h2 : kv.1 ∈ two_genes <;> simp [geneCount, h1, h2]
  simp only [Function.comp_apply, hgene]

theorem list_sum_map_mul_left_rat {α : Type} (l : List α) (f : α → ℚ) (c : ℚ) :
    (l.map (fun a => c * f a)).sum = c * (l.map f).sum := by
  induction l with
  | nil => simp
  | cons a rest ih =>
    simp only [List.map_cons, List.sum_cons, ih]
    ring

theorem sum_map_flatMap {α β : Type} (l : List α) (f : α → List β) (h : β → ℚ) :
    ((l.flatMap f).map h).sum = (l.map (fun a => ((f a).map h).sum)).sum := by
  induction l with
  | nil => rfl
  | cons a rest ih => simp [List.flatMap_cons, ih]

/-- The code's double enumeration of (one_gene, two_genes) pairs, summing
a per-world product over the names. -/
def pairsSum (l : List ℕ) (F : ℕ → ℕ → ℚ) : ℚ :=
  ((powerset l).map (fun one =>
    ((powerset (l.filter (fun p => !decide (p ∈ one)))).map (fun two =>
      (l.map (fun p => F p (geneCount one two p))).prod)).sum)).sum

/-- The double subset enumeration of gene partitions factors into a
product of per-person bucket sums: enumerating `one_gene ⊆ l` and
`two_genes ⊆ l - one_gene` is the same as independently assigning each
person one of the three buckets. -/
theorem pairsSum_factorizes (F : ℕ → ℕ → ℚ) :
    ∀ l : List ℕ, l.Nodup →
      pairsSum l F = (l.map (fun p => F p 0 + F p 1 + F p 2)).prod := by
  intro l
  induction l with
  | nil =>
    intro _
    simp [pairsSum, powerset]
  | cons x xs ih =>
    intro hnd
    have hx : x ∉ xs := (List.nodup_cons.mp hnd).1
    have hxs : xs.Nodup := (List.nodup_cons.mp hnd).2
    have hA : ∀ one ∈ powerset xs,
        ((powerset ((x :: xs).filter (fun p => !decide (p ∈ one)))).map (fun two =>
          ((x :: xs).map (fun p => F p (geneCount one two p))).prod)).sum =
        (F x 0 + F x 2) *
          ((powerset (xs.filter (fun p => !decide (p ∈ one)))).map (fun two =>
            (xs.map (fun p => F p (geneCount one two p))).prod)).sum := by
      intro one hone
      have hxone : x ∉ one := fun hmem => hx (powerset_subset xs one hone hmem)
      have hfilter : (x :: xs).filter (fun p => !decide (p ∈ one)) =
          x :: xs.filter (fun p => !decide (p ∈ one)) := by
        rw [List.filter_cons_of_pos]
        simp [hxone]
      rw [hfilter]
      rw [show powerset (x :: xs.filter (fun p => !decide (p ∈ one))) =
        powerset (xs.filter (fun p => !decide (p ∈ one))) ++
          (powerset (xs.filter (fun p => !decide (p ∈ one)))).map (fun s => x :: s) from rfl]
      rw [List.map_append, List.sum_append, List.map_map]
      have h1 : (powerset (xs.filter (fun p => !decide (p ∈ one)))).map (fun two =>
          ((x :: xs).map (fun p => F p (geneCount one two p))).prod) =
          (powerset (xs.filter (fun p => !decide (p ∈ one)))).map (fun two =>
            F x 0 * (xs.map (fun p => F p (geneCount one two p))).prod) := by
        apply List.map_congr_left
        intro two htwo
        have hxtwo : x ∉ two := fun hmem =>
          hx (List.mem_of_mem_filter (powerset_subset _ two htwo hmem))
        simp only [List.map_cons, List.prod_cons]
        have hg : geneCount one two x = 0 := by simp [geneCount, hxone, hxtwo]
        rw [hg]
      have h2 : (powerset (xs.filter (fun p => !decide (p ∈ one)))).map
          ((fun two => ((x :: xs).map (fun p => F p (geneCount one two p))).prod) ∘
            (fun s => x :: s)) =
          (powerset (xs.filter (fun p => !decide (p ∈ one)))).map (fun two =>
            F x 2 * (xs.map (fun p => F p (geneCount one two p))).prod) := by
        apply List.map_congr_left
        intro two htwo
        simp only [Function.comp_apply, List.map_cons, List.prod_cons]
        have hgx : geneCount one (x :: two) x = 2 := by simp [geneCount, hxone]
        rw [hgx]
        have hrest : xs.map (fun p => F p (geneCount one (x :: two) p)) =
            xs.map (fun p => F p (geneCount one two p)) := by
          apply List.map_congr_left
          intro p hp
          have hpx : p ≠ x := fun h => hx (h ▸ hp)
          have hgp : geneCount one (x :: two) p = geneCount one two p := by
            simp only [geneCount, List.mem_cons]
            by_cases hpo : p ∈ one
            · simp [hpo]
            · simp [hpo, hpx]
          rw [hgp]
        rw [hrest]
      rw [h1, h2, list_sum_map_mul_left_rat, list_sum_map_mul_left_rat]
      ring
    have hB : ∀ one ∈ powerset xs,
        ((powerset ((x :: xs).filter (fun p => !decide (p ∈ x :: one)))).map (fun two =>
          ((x :: xs).map (fun p => F p (geneCount (x :: one) two p))).prod)).sum =
        F x 1 *
          ((powerset (xs.filter (fun p => !decide (p ∈ one)))).map (fun two =>
            (xs.map (fun p => F p (geneCount one two p))).prod)).sum := by
      intro one hone
      have hfilterB : (x :: xs).filter (fun p => !decide (p ∈ x :: one)) =
          xs.filter (fun p => !decide (p ∈ one)) := by
        rw [List.filter_cons_of_neg]
        · apply List.filter_congr
          intro p hp
          have hpx : p ≠ x := fun h => hx (h ▸ hp)
          simp [List.mem_cons, hpx]
        · simp
      rw [hfilterB]
      have h3 : (powerset (xs.filter (fun p => !decide (p ∈ one)))).map (fun two =>
          ((x :: xs).map (fun p => F p (geneCount (x :: one) two p))).prod) =
          (powerset (xs.filter (fun p => !decide (p ∈ one)))).map (fun two =>
            F x 1 * (xs.map (fun p => F p (geneCount one two p))).prod) := by
        apply List.map_congr_left
        intro two htwo
        simp only [List.map_cons, List.prod_cons]
        have hgx : geneCount (x :: one) two x = 1 := by simp [geneCount]
        rw [hgx]
        have hrest : xs.map (fun p => F p (geneCount (x :: one) two p)) =
            xs.map (fun p => F p (geneCount one two p)) := by
          apply List.map_congr_left
          intro p hp
          have hpx : p ≠ x := fun h => hx (h ▸ hp)
          have hgp : geneCount (x :: one) two p = geneCount one two p := by
            simp only [geneCount, List.mem_cons]
            simp [hpx]
          rw [hgp]
        rw [hrest]
      rw [h3, list_sum_map_mul_left_rat]
    show ((powerset (x :: xs)).map _).sum = _
    rw [show powerset (x :: xs) =
      powerset xs ++ (powerset xs).map (fun s => x :: s) from rfl]
    rw [List.map_append, List.sum_append, List.map_map]
    have hmapA : (powerset xs).map (fun one =>
        ((powerset ((x :: xs).filter (fun p => !decide (p ∈ one)))).map (fun two =>
          ((x :: xs).map (fun p => F p (geneCount one two p))).prod)).sum) =
        (powerset xs).map (fun one => (F x 0 + F x 2) *
          ((powerset (xs.filter (fun p => !decide (p ∈ one)))).map (fun two =>
            (xs.map (fun p => F p (geneCount one two p))).prod)).sum) :=
      List.map_congr_left hA
    have hmapB : (powerset xs).map ((fun one =>
        ((powerset ((x :: xs).filter (fun p => !decide (p ∈ one)))).map (fun two =>
          ((x :: xs).map (fun p => F p (geneCount one two p))).prod)).sum) ∘
          (fun s => x :: s)) =
        (powerset xs).map (fun one => F x 1 *
          ((powerset (xs.filter (fun p => !decide (p ∈ one)))).map (fun two =>
            (xs.map (fun p => F p (geneCount one two p))).prod)).sum) :=
      List.map_congr_left (fun one hone => by
        simpa only [Function.comp_apply] using hB one hone)
    have hps : ((powerset xs).map (fun one =>
        ((powerset (xs.filter (fun p => !decide (p ∈ one)))).map (fun two =>
          (xs.map (fun p => F p (geneCount one two p))).prod)).sum)).sum = pairsSum xs F := rfl
    rw [hmapA, hmapB, list_sum_map_mul_left_rat, list_sum_map_mul_left_rat, hps, ih hxs]
    simp only [List.map_cons, List.prod_cons]
    ring

/-- The gene-partition enumeration restricted to the worlds that assign
person `X` the bucket `g`. -/
def pairsSumFixed (l : List ℕ) (F : ℕ → ℕ → ℚ) (X g : ℕ) : ℚ :=
  ((powerset l).map (fun one =>
    ((powerset (l.filter (fun p => !decide (p ∈ one)))).map (fun two =>
      if geneCount one two X = g then (l.map (fun p => F p (geneCount one two p))).prod
      else 0)).sum)).sum

theorem pairsSumFixed_factorizes (l : List ℕ) (hnd : l.Nodup) (F : ℕ → ℕ → ℚ)
    (X : ℕ) (hX : X ∈ l) (g : ℕ) (hg : g < 3) :
    pairsSumFixed l F X g =
      (l.map (fun p => if p = X then F p g else F p 0 + F p 1 + F p 2)).prod := by
  have hstep : pairsSumFixed l F X g = pairsSum l (fun p c =>
      if p = X then (if c = g then F p c else 0) else F p c) := by
    unfold pairsSumFixed pairsSum
    apply congrArg
    apply List.map_congr_left
    intro one hone
    apply congrArg
    apply List.map_congr_left
    intro two htwo
    by_cases hgc : geneCount one two X = g
    · rw [if_pos hgc]
      apply congrArg
      apply List.map_congr_left
      intro p hp
      by_cases hpX : p = X
      · subst hpX
        simp [hgc]
      · simp [hpX]
    · rw [if_neg hgc]
      symm
      apply List.prod_eq_zero
      simp only [List.mem_map]
      exact ⟨X, hX, by simp [hgc]⟩
  rw [hstep, pairsSum_factorizes _ l hnd]
  apply congrArg
  apply List.map_congr_left
  intro p hp
  by_cases hpX : p = X
  · subst hpX
    simp only [if_pos rfl]
    interval_cases g <;> simp
  · simp [hpX]

/-- The trait values a person's evidence allows. -/
def allowedTraits : Option Bool → List Bool
  | none => [false, true]
  | some t => [t]

/-- The evidence-filtered trait-subset enumeration of `main`, summing a
per-world product over the names. -/
def traitSum (people : List (ℕ × PersonData)) (T : ℕ → Bool → ℚ) : ℚ :=
  (((powerset (names people)).filter (fun ht => !failsEvidence people ht)).map (fun ht =>
    ((names people).map (fun p => T p (decide (p ∈ ht)))).prod)).sum

theorem failsEvidence_cons_irrelevant (rest : List (ℕ × PersonData)) (x : ℕ) (ht : List ℕ)
    (h : ∀ kv ∈ rest, kv.1 ≠ x) :
    failsEvidence rest (x :: ht) = failsEvidence rest ht := by
  unfold failsEvidence
  apply list_any_congr
  intro kv hkv
  cases htr : kv.2.trait with
  | none => simp
  | some t => simp [List.mem_cons, h kv hkv]

theorem failsEvidence_cons (kv : ℕ × PersonData) (rest : List (ℕ × PersonData))
    (ht : List ℕ) :
    failsEvidence (kv :: rest) ht =
      ((match kv.2.trait with
        | some t => decide (t ≠ decide (kv.1 ∈ ht))
        | none => false) || failsEvidence rest ht) := rfl

/-- The evidence-filtered trait enumeration factors into a product of
per-person sums over the trait values each person's evidence allows. -/
theorem traitSum_factorizes (T : ℕ → Bool → ℚ) :
    ∀ people : List (ℕ × PersonData), (names people).Nodup →
      traitSum people T =
        (people.map (fun kv =>
          ((allowedTraits kv.2.trait).map (fun b => T kv.1 b)).sum)).prod := by
  intro people
  induction people with
  | nil =>
    intro _
    simp [traitSum, powerset, names, failsEvidence]
  | cons kv rest ih =>
    intro hnd
    have hx : kv.1 ∉ names rest := (List.nodup_cons.mp hnd).1
    have hns : (names rest).Nodup := (List.nodup_cons.mp hnd).2
    have hkeys : ∀ kv2 ∈ rest, kv2.1 ≠ kv.1 := by
      intro kv2 hkv2 heq
      exact hx (heq ▸ List.mem_map_of_mem Prod.fst hkv2)
    have hxht : ∀ ht ∈ powerset (names rest), kv.1 ∉ ht :=
      fun ht hht hmem => hx (powerset_subset _ ht hht hmem)
    have hprod1 : ∀ ht ∈ powerset (names rest),
        ((kv.1 :: names rest).map (fun p => T p (decide (p ∈ ht)))).prod =
          T kv.1 false * ((names rest).map (fun p => T p (decide (p ∈ ht)))).prod := by
      intro ht hht
      simp only [List.map_cons, List.prod_cons]
      rw [show decide (kv.1 ∈ ht) = false by simp [hxht ht hht]]
    have hprod2 : ∀ ht ∈ powerset (names rest),
        ((kv.1 :: names rest).map (fun p => T p (decide (p ∈ kv.1 :: ht)))).prod =
          T kv.1 true * ((names rest).map (fun p => T p (decide (p ∈ ht)))).prod := by
      intro ht hht
      simp only [List.map_cons, List.prod_cons]
      rw [show decide (kv.1 ∈ kv.1 :: ht) = true by simp]
      have hcong : (names rest).map (fun p => T p (decide (p ∈ kv.1 :: ht))) =
          (names rest).map (fun p => T p (decide (p ∈ ht))) := by
        apply List.map_congr_left
        intro p hp
        have hpx : p ≠ kv.1 := fun h => hx (h ▸ hp)
        simp [List.mem_cons, hpx]
      rw [hcong]
    have hts : (((powerset (names rest)).filter (fun ht => !failsEvidence rest ht)).map
        (fun ht => ((names rest).map (fun p => T p (decide (p ∈ ht)))).prod)).sum =
        traitSum rest T := rfl
    show (((powerset (names (kv :: rest))).filter
      (fun ht => !failsEvidence (kv :: rest) ht)).map (fun ht =>
        ((names (kv :: rest)).map (fun p => T p (decide (p ∈ ht)))).prod)).sum = _
    rw [show names (kv :: rest) = kv.1 :: names rest from rfl]
    rw [show powerset (kv.1 :: names rest) = powerset (names rest) ++
      (powerset (names rest)).map (fun s => kv.1 :: s) from rfl]
    rw [List.filter_append, List.map_append, List.sum_append, List.filter_map,
      List.map_map]
    cases htr : kv.2.trait with
    | none =>
      have hf1 : (powerset (names rest)).filter
          (fun ht => !failsEvidence (kv :: rest) ht) =
          (powerset (names rest)).filter (fun ht => !failsEvidence rest ht) := by
        apply List.filter_congr
        intro ht hht
        simp [failsEvidence_cons, htr]
      have hf2 : (powerset (names rest)).filter
          ((fun ht => !failsEvidence (kv :: rest) ht) ∘ (fun s => kv.1 :: s)) =
          (powerset (names rest)).filter (fun ht => !failsEvidence rest ht) := by
        apply List.filter_congr
        intro ht hht
        simp only [Function.comp_apply, failsEvidence_cons, htr,
          failsEvidence_cons_irrelevant rest kv.1 ht hkeys]
        simp
      have hmap1 : ((powerset (names rest)).filter
          (fun ht => !failsEvidence rest ht)).map (fun ht =>
            ((kv.1 :: names rest).map (fun p => T p (decide (p ∈ ht)))).prod) =
          ((powerset (names rest)).filter (fun ht => !failsEvidence rest ht)).map
            (fun ht => T kv.1 false *
              ((names rest).map (fun p => T p (decide (p ∈ ht)))).prod) :=
        List.map_congr_left (fun ht hht => hprod1 ht (List.mem_of_mem_filter hht))
      have hmap2 : ((powerset (names rest)).filter
          (fun ht => !failsEvidence rest ht)).map ((fun ht =>
            ((kv.1 :: names rest).map (fun p => T p (decide (p ∈ ht)))).prod) ∘
            (fun s => kv.1 :: s)) =
          ((powerset (names rest)).filter (fun ht => !failsEvidence rest ht)).map
            (fun ht => T kv.1 true *
              ((names rest).map (fun p => T p (decide (p ∈ ht)))).prod) :=
        List.map_congr_left (fun ht hht => by
          simpa only [Function.comp_apply] using hprod2 ht (List.mem_of_mem_filter hht))
      rw [hf1, hf2, hmap1, hmap2, list_sum_map_mul_left_rat, list_sum_map_mul_left_rat,
        hts, ih hns]
      simp only [List.map_cons, List.prod_cons, htr, allowedTraits, List.map_nil,
        List.sum_cons, List.sum_nil]
      ring
    | some t =>
      cases t with
      | false =>
        have hf1 : (powerset (names rest)).filter
            (fun ht => !failsEvidence (kv :: rest) ht) =
            (powerset (names rest)).filter (fun ht => !failsEvidence rest ht) := by
          apply List.filter_congr
          intro ht hht
          simp [failsEvidence_cons, htr, hxht ht hht]
        have hf2 : (powerset (names rest)).filter
            ((fun ht => !failsEvidence (kv :: rest) ht) ∘ (fun s => kv.1 :: s)) = [] := by
          rw [show ([] : List (List ℕ)) =
            (powerset (names rest)).filter (fun _ => false) by simp]
          apply List.filter_congr
          intro ht hht
          simp [failsEvidence_cons, htr]
        have hmap1 : ((powerset (names rest)).filter
            (fun ht => !failsEvidence rest ht)).map (fun ht =>
              ((kv.1 :: names rest).map (fun p => T p (decide (p ∈ ht)))).prod) =
            ((powerset (names rest)).filter (fun ht => !failsEvidence rest ht)).map
              (fun ht => T kv.1 false *
                ((names rest).map (fun p => T p (decide (p ∈ ht)))).prod) :=
          List.map_congr_left (fun ht hht => hprod1 ht (List.mem_of_mem_filter hht))
        rw [hf1, hf2, hmap1, list_sum_map_mul_left_rat, hts, ih hns]
        simp only [List.map_cons, List.prod_cons, htr, allowedTraits, List.map_nil,
          List.sum_cons, List.sum_nil]
        ring
      | true =>
        have hf1 : (powerset (names rest)).filter
            (fun ht => !failsEvidence (kv :: rest) ht) = [] := by
          rw [show ([] : List (List ℕ)) =
            (powerset (names rest)).filter (fun _ => false) by simp]
          apply List.filter_congr
          intro ht hht
          simp [failsEvidence_cons, htr, hxht ht hht]
        have hf2 : (powerset (names rest)).filter
            ((fun ht => !failsEvidence (kv :: rest) ht) ∘ (fun s => kv.1 :: s)) =
            (powerset (names rest)).filter (fun ht => !failsEvidence rest ht) := by
          apply List.filter_congr
          intro ht hht
          simp only [Function.comp_apply, failsEvidence_cons, htr,
            failsEvidence_cons_irrelevant rest kv.1 ht hkeys]
          simp
        have hmap2 : ((powerset (names rest)).filter
            (fun ht => !failsEvidence rest ht)).map ((fun ht =>
              ((kv.1 :: names rest).map (fun p => T p (decide (p ∈ ht)))).prod) ∘
              (fun s => kv.1 :: s)) =
            ((powerset (names rest)).filter (fun ht => !failsEvidence rest ht)).map
              (fun ht => T kv.1 true *
                ((names rest).map (fun p => T p (decide (p ∈ ht)))).prod) :=
          List.map_congr_left (fun ht hht => by
            simpa only [Function.comp_apply] using hprod2 ht (List.mem_of_mem_filter hht))
        rw [hf1, hf2, hmap2, list_sum_map_mul_left_rat, hts, ih hns]
        simp only [List.map_cons, List.prod_cons, htr, allowedTraits, List.map_nil,
          List.sum_cons, List.sum_nil]
        ring

theorem PROBS_trait_total (g : ℕ) : PROBS_trait g false + PROBS_trait g true = 1 := by
  by_cases h2 : g = 2
  · norm_num [PROBS_trait, h2]
  · by_cases h1 : g = 1 <;> norm_num [PROBS_trait, h1, h2]

theorem allowed_sum_pos (tr : Option Bool) :
    0 < ((allowedTraits tr).map (fun b =>
      PROBS_gene 0 * PROBS_trait 0 b + PROBS_gene 1 * PROBS_trait 1 b +
        PROBS_gene 2 * PROBS_trait 2 b)).sum := by
  cases tr with
  | none => norm_num [allowedTraits, PROBS_gene, PROBS_trait]
  | some t => cases t <;> norm_num [allowedTraits, PROBS_gene, PROBS_trait]

theorem prod_ite_key (X : ℕ) (a : ℚ) (K : ℕ × PersonData → ℚ) :
    ∀ people : List (ℕ × PersonData), (names people).Nodup → X ∈ names people →
      (people.map (fun kv => if kv.1 = X then a else K kv)).prod =
        a * (people.map (fun kv => if kv.1 = X then 1 else K kv)).prod := by
  intro people
  induction people with
  | nil =>
    intro _ hX
    simp [names] at hX
  | cons kv rest ih =>
    intro hnd hX
    by_cases hkvX : kv.1 = X
    · have hXrest : X ∉ names rest := hkvX ▸ (List.nodup_cons.mp hnd).1
      have hrest : ∀ kv2 ∈ rest, kv2.1 ≠ X :=
        fun kv2 h2 heq => hXrest (heq ▸ List.mem_map_of_mem Prod.fst h2)
      simp only [List.map_cons, List.prod_cons, if_pos hkvX]
      have hmapa : rest.map (fun kv2 => if kv2.1 = X then a else K kv2) = rest.map K :=
        List.map_congr_left (fun kv2 h2 => if_neg (hrest kv2 h2))
      have hmap1 : rest.map (fun kv2 => if kv2.1 = X then 1 else K kv2) = rest.map K :=
        List.map_congr_left (fun kv2 h2 => if_neg (hrest kv2 h2))
      rw [hmapa, hmap1]
      ring
    · have hXrest : X ∈ names rest := by
        rcases List.mem_cons.mp (show X ∈ kv.1 :: names rest from hX) with h | h
        · exact absurd h.symm hkvX
        · exact h
      simp only [List.map_cons, List.prod_cons, if_neg hkvX]
      rw [ih (List.nodup_cons.mp hnd).2 hXrest]
      ring

/-- In a founder-only population, the accumulated gene bucket of a person
with unknown trait factorizes as the prior of the bucket times a factor
independent of the bucket. -/
theorem founder_accumGene (people : List (ℕ × PersonData)) (X g : ℕ)
    (hnd : (names people).Nodup) (hfound : ∀ kv ∈ people, kv.2.mother = none)
    (hX : X ∈ names people) (hXtrait : ∀ kv ∈ people, kv.1 = X → kv.2.trait = none)
    (hg : g < 3) :
    (mainAccum people).gene (X, g) = PROBS_gene g *
      (people.map (fun kv => if kv.1 = X then 1 else
        ((allowedTraits kv.2.trait).map (fun b =>
          PROBS_gene 0 * PROBS_trait 0 b + PROBS_gene 1 * PROBS_trait 1 b +
            PROBS_gene 2 * PROBS_trait 2 b)).sum)).prod := by
  rw [mainAccum_gene people hnd X hX g]
  unfold enumWorlds
  rw [sum_map_flatMap]
  have hht : ∀ ht ∈ (powerset (names people)).filter (fun ht2 => !failsEvidence people ht2),
      (((powerset (names people)).flatMap (fun one =>
        (powerset ((names people).filter (fun p => !decide (p ∈ one)))).map
          (fun two => (one, two, ht)))).map (fun w =>
            if geneCount w.1 w.2.1 X = g then joint_probability people w.1 w.2.1 w.2.2
            else 0)).sum =
      ((names people).map (fun p =>
        (fun p2 b => if p2 = X then PROBS_gene g * PROBS_trait g b else
          PROBS_gene 0 * PROBS_trait 0 b + PROBS_gene 1 * PROBS_trait 1 b +
            PROBS_gene 2 * PROBS_trait 2 b) p (decide (p ∈ ht)))).prod := by
    intro ht hhtmem
    rw [sum_map_flatMap]
    have hone : ∀ one ∈ powerset (names people),
        (((powerset ((names people).filter (fun p => !decide (p ∈ one)))).map
          (fun two => (one, two, ht))).map (fun w =>
            if geneCount w.1 w.2.1 X = g then joint_probability people w.1 w.2.1 w.2.2
            else 0)).sum =
        ((powerset ((names people).filter (fun p => !decide (p ∈ one)))).map
          (fun two => if geneCount one two X = g then
            ((names people).map (fun p =>
              (fun p2 c => PROBS_gene c * PROBS_trait c (decide (p2 ∈ ht))) p
                (geneCount one two p))).prod
            else 0)).sum := by
      intro one _
      rw [List.map_map]
      apply congrArg
      apply List.map_congr_left
      intro two _
      simp only [Function.comp_apply]
      by_cases hgc : geneCount one two X = g
      · rw [if_pos hgc, if_pos hgc, joint_probability_founders people hfound]
      · rw [if_neg hgc, if_neg hgc]
    rw [List.map_congr_left hone]
    rw [show ((powerset (names people)).map (fun one =>
        ((powerset ((names people).filter (fun p => !decide (p ∈ one)))).map
          (fun two => if geneCount one two X = g then
            ((names people).map (fun p =>
              (fun p2 c => PROBS_gene c * PROBS_trait c (decide (p2 ∈ ht))) p
                (geneCount one two p))).prod
            else 0)).sum)).sum =
      pairsSumFixed (names people)
        (fun p2 c => PROBS_gene c * PROBS_trait c (decide (p2 ∈ ht))) X g from rfl]
    rw [pairsSumFixed_factorizes (names people) hnd _ X hX g hg]
  rw [List.map_congr_left hht]
  rw [show (((powerset (names people)).filter
      (fun ht2 => !failsEvidence people ht2)).map (fun ht =>
        ((names people).map (fun p =>
          (fun p2 b => if p2 = X then PROBS_gene g * PROBS_trait g b else
            PROBS_gene 0 * PROBS_trait 0 b + PROBS_gene 1 * PROBS_trait 1 b +
              PROBS_gene 2 * PROBS_trait 2 b) p (decide (p ∈ ht)))).prod)).sum =
    traitSum people (fun p2 b => if p2 = X then PROBS_gene g * PROBS_trait g b else
      PROBS_gene 0 * PROBS_trait 0 b + PROBS_gene 1 * PROBS_trait 1 b +
        PROBS_gene 2 * PROBS_trait 2 b) from rfl]
  rw [traitSum_factorizes _ people hnd]
  have hperkv : ∀ kv ∈ people,
      ((allowedTraits kv.2.trait).map (fun b =>
        (fun p2 b2 => if p2 = X then PROBS_gene g * PROBS_trait g b2 else
          PROBS_gene 0 * PROBS_trait 0 b2 + PROBS_gene 1 * PROBS_trait 1 b2 +
            PROBS_gene 2 * PROBS_trait 2 b2) kv.1 b)).sum =
      (if kv.1 = X then PROBS_gene g else
        ((allowedTraits kv.2.trait).map (fun b =>
          PROBS_gene 0 * PROBS_trait 0 b + PROBS_gene 1 * PROBS_trait 1 b +
            PROBS_gene 2 * PROBS_trait 2 b)).sum) := by
    intro kv hkv
    by_cases hkvX : kv.1 = X
    · rw [if_pos hkvX, hXtrait kv hkv hkvX]
      simp only [allowedTraits, List.map_cons, List.map_nil, List.sum_cons, List.sum_nil,
        if_pos hkvX]
      have htot := PROBS_trait_total g
      linear_combination PROBS_gene g * htot
    · rw [if_neg hkvX]
      apply congrArg
      apply List.map_congr_left
      intro b _
      simp [hkvX]
  rw [List.map_congr_left hperkv]
  rw [prod_ite_key X (PROBS_gene g) _ people hnd hX]

/-- C8, amended: in a founder-only population every person whose own trait
evidence is unknown keeps exactly the prior gene distribution
0 ↦ 0.96, 1 ↦ 0.03, 2 ↦ 0.01, whatever trait evidence the other founders
carry. -/
theorem founder_unknown_trait_gene_dist_eq_prior (people : List (ℕ × PersonData))
    (X : ℕ) (hnd : (names people).Nodup)
    (hfound : ∀ kv ∈ people, kv.2.mother = none ∧ kv.2.father = none)
    (hX : X ∈ names people)
    (hXtrait : ∀ kv ∈ people, kv.1 = X → kv.2.trait = none)
    (g : ℕ) (hg : g < 3) :
    geneDistribution people X g = PROBS_gene g := by
  have hmother : ∀ kv ∈ people, kv.2.mother = none := fun kv h => (hfound kv h).1
  have h0 := founder_accumGene people X 0 hnd hmother hX hXtrait (by norm_num)
  have h1 := founder_accumGene people X 1 hnd hmother hX hXtrait (by norm_num)
  have h2 := founder_accumGene people X 2 hnd hmother hX hXtrait (by norm_num)
  have hgg := founder_accumGene people X g hnd hmother hX hXtrait hg
  set R := (people.map (fun kv => if kv.1 = X then 1 else
    ((allowedTraits kv.2.trait).map (fun b =>
      PROBS_gene 0 * PROBS_trait 0 b + PROBS_gene 1 * PROBS_trait 1 b +
        PROBS_gene 2 * PROBS_trait 2 b)).sum)).prod with hR
  have hRpos : 0 < R := by
    rw [hR]
    apply List.prod_pos
    intro x hx
    simp only [List.mem_map] at hx
    obtain ⟨kv, hkv, rfl⟩ := hx
    by_cases hkvX : kv.1 = X
    · simp [hkvX]
    · simp only [if_neg hkvX]
      exact allowed_sum_pos kv.2.trait
  unfold geneDistribution
  rw [hgg, h0, h1, h2]
  have hsum : PROBS_gene 0 * R + PROBS_gene 1 * R + PROBS_gene 2 * R = R := by
    have hone : PROBS_gene 0 + PROBS_gene 1 + PROBS_gene 2 = 1 := by norm_num [PROBS_gene]
    linear_combination R * hone
  rw [hsum, mul_div_assoc, div_self (ne_of_gt hRpos), mul_one]

theorem founder_unknown_trait_gene_dist_eq_prior_witness :
    ((names [(0, PersonData.mk none none (some true)),
        (1, PersonData.mk none none none)]).Nodup ∧
      1 ∈ names [(0, PersonData.mk none none (some true)),
        (1, PersonData.mk none none none)]) ∧
    geneDistribution [(0, PersonData.mk none none (some true)),
      (1, PersonData.mk none none none)] 1 0 = PROBS_gene 0 :=
  ⟨⟨by decide, by decide⟩,
    founder_unknown_trait_gene_dist_eq_prior _ 1 (by decide) (by decide) (by decide)
      (by decide) 0 (by norm_num)⟩

/-- C8, counterexample: a single founder with observed trait `true` gets a
gene distribution reweighted by the trait likelihoods: the zero-copies
entry is 96/329 ≈ 0.292, not the prior 0.96. -/
theorem founder_with_evidence_gene_dist_ne_prior :
    geneDistribution [(0, PersonData.mk none none (some true))] 0 0 = 96/329 ∧
    (96/329 : ℚ) ≠ 96/100 := by
  constructor
  · norm_num [geneDistribution, mainAccum, enumWorlds, powerset, names, failsEvidence,
      update, joint_probability, probGeneOf, geneCount, PROBS_gene, PROBS_trait,
      parentPass, memOpt, Function.update, Prod.ext_iff]
  · norm_num
